import Mathlib

/-!
Verification development for the Miden chiplets core: the chiplets bus
(`processor/src/chiplets/bus/mod.rs`) and the hash chiplet
(`processor/src/chiplets/hasher/mod.rs`).

The embedding is shallow: each Rust method becomes a pure Lean function on an
explicit state value.  Field elements are modelled generically over a `Field F`
(the source is generic over `E: FieldElement`); machine integers (`u32`/`u64`
addresses, cycles, indices) become `Nat`.  Fallible operations (Rust `assert!`,
`debug_assert!`, or panicking indexing) return `Option`, with `none` marking
the fatal failure.

Parts of the repository referenced by the two files above but not present in
the source tree (`lookups.rs`, `trace.rs`, the two `aux_trace.rs` files, and
the `vm_core` hasher primitives) are modelled from the specification; each such
definition carries a doc comment starting with `Modelled from the spec:`.
-/

namespace Miden

-- ================================================================================================
-- CONSTANTS
-- ================================================================================================

/-- Modelled from the spec: sponge state width `W = 12` (`vm_core` is not under src/). -/
def STATE_WIDTH : Nat := 12

/-- Modelled from the spec: capacity length `C = 4`. -/
def CAPACITY_LEN : Nat := 4

/-- Modelled from the spec: rate length `R = 8`. -/
def RATE_LEN : Nat := 8

/-- Modelled from the spec: rows per permutation cycle (`HASH_CYCLE_LEN = 8`). -/
def HASH_CYCLE_LEN : Nat := 8

/-- A word: four field elements (the digest size). -/
abbrev Word (F : Type) := List F

/-- The sponge state: twelve field elements, capacity first, rate last. -/
abbrev HasherState (F : Type) := List F

/-- Selector triple `(s0, s1, s2)`; each component is 0 or 1 in the trace.
Comparisons in the source are field-element comparisons against the fixed
0/1-valued constants, so `Nat` components embed them faithfully. -/
abbrev Selectors := Nat × Nat × Nat

/-- Modelled from the spec: `LINEAR_HASH` selector triple from `vm_core` (not under
src/).  The spec fixes the structure the code relies on: the four start-of-cycle
selector triples have first component 1 (so that `part_selectors`, which zero the
first component, are recognized by no label), and the six triples are pairwise
distinct and map 1-1 to labels. -/
def LINEAR_HASH : Selectors := (1, 0, 0)

/-- Modelled from the spec: `MP_VERIFY` selector triple (see `LINEAR_HASH`). -/
def MP_VERIFY : Selectors := (1, 0, 1)

/-- Modelled from the spec: `MR_UPDATE_OLD` selector triple (see `LINEAR_HASH`). -/
def MR_UPDATE_OLD : Selectors := (1, 1, 0)

/-- Modelled from the spec: `MR_UPDATE_NEW` selector triple (see `LINEAR_HASH`). -/
def MR_UPDATE_NEW : Selectors := (1, 1, 1)

/-- Modelled from the spec: `RETURN_HASH` selector triple (see `LINEAR_HASH`). -/
def RETURN_HASH : Selectors := (0, 0, 0)

/-- Modelled from the spec: `RETURN_STATE` selector triple (see `LINEAR_HASH`). -/
def RETURN_STATE : Selectors := (0, 0, 1)

/-- Modelled from the spec: `LINEAR_HASH_LABEL` (`u8` constant from `vm_core`, not
under src/).  The spec fixes only that the six labels are distinct constants; the
numeric values are not used by any claim. -/
def LINEAR_HASH_LABEL : Nat := 1

/-- Modelled from the spec: `RETURN_HASH_LABEL` (see `LINEAR_HASH_LABEL`). -/
def RETURN_HASH_LABEL : Nat := 2

/-- Modelled from the spec: `RETURN_STATE_LABEL` (see `LINEAR_HASH_LABEL`). -/
def RETURN_STATE_LABEL : Nat := 3

/-- Modelled from the spec: `MP_VERIFY_LABEL` (see `LINEAR_HASH_LABEL`). -/
def MP_VERIFY_LABEL : Nat := 4

/-- Modelled from the spec: `MR_UPDATE_OLD_LABEL` (see `LINEAR_HASH_LABEL`). -/
def MR_UPDATE_OLD_LABEL : Nat := 5

/-- Modelled from the spec: `MR_UPDATE_NEW_LABEL` (see `LINEAR_HASH_LABEL`). -/
def MR_UPDATE_NEW_LABEL : Nat := 6

/-- Modelled from the spec: `MEMORY_LABEL` for the memory chiplet (see
`LINEAR_HASH_LABEL`). -/
def MEMORY_LABEL : Nat := 7

-- ================================================================================================
-- LOOKUP DESCRIPTORS
-- ================================================================================================

/-- Modelled from the spec: `HasherLookupContext` (`lookups.rs` is not under src/).
`absorb` carries the post-absorption state used by the absorb-row reduction. -/
inductive HasherLookupContext (F : Type) where
  | start : HasherLookupContext F
  | absorb (nextState : HasherState F) : HasherLookupContext F
  | ret : HasherLookupContext F
deriving DecidableEq

/-- Modelled from the spec: `HasherLookup` (`lookups.rs` is not under src/):
`{label, state, addr, index, context}`.  `addr` is the 1-indexed trace row
address; `index` is the node index (a `Felt` built with `Felt::new` from a
`u64`, embedded as `Nat`). -/
structure HasherLookup (F : Type) where
  label : Nat
  state : HasherState F
  addr : Nat
  index : Nat
  context : HasherLookupContext F
deriving DecidableEq

/-- Modelled from the spec: a bitwise chiplet lookup row.  The spec gives no
reduction scheme for it and says the bus treats all rows as opaque reducers, so
it is modelled by its reduction value alone. -/
structure BitwiseLookup (F : Type) where
  value : F
deriving DecidableEq

/-- Modelled from the spec: `MemoryLookup` with the fields of the §6 reduction
scheme: context, address, clock, old word and new word. -/
structure MemoryLookup (F : Type) where
  ctx : Nat
  addr : Nat
  clk : Nat
  oldWord : Word F
  newWord : Word F
deriving DecidableEq

/-- Challenge accessor: `alphas[i]`, defaulting to 0 past the end (the source
indexes a slice of length at least 16). -/
def alphaAt {F : Type} [Field F] (alphas : List F) (i : Nat) : F :=
  alphas.getD i 0

/-- Sum of `alpha_k * element_k` over matching positions (the test helper
`build_value`). -/
def buildValue {F : Type} [Field F] (alphas elements : List F) : F :=
  (List.zipWith (fun a e => a * e) alphas elements).sum

/-- Slice `alphas[i .. i+n)`. -/
def alphaSlice {F : Type} (alphas : List F) (i n : Nat) : List F :=
  (alphas.drop i).take n

/-- Modelled from the spec: the §6 reduction of a `HasherLookup` to a field
element (`lookups.rs` is not under src/); it agrees with the in-src test helper
`build_expected` in `trace/tests/chiplets/hasher.rs`.  The transition label adds
16 on first-cycle rows (`addr ≡ 1 (mod 8)`) and 32 otherwise; the header is
`α₀ + α₁·tlabel + α₂·addr + α₃·index`; the payload depends on the label and row
position as in §6. -/
def HasherLookup.toValue {F : Type} [Field F] (l : HasherLookup F) (alphas : List F) : F :=
  let firstRow : Bool := l.addr % 8 == 1
  let tlabel : Nat := l.label + (if firstRow then 16 else 32)
  let header : F := alphaAt alphas 0 + alphaAt alphas 1 * (tlabel : F)
    + alphaAt alphas 2 * (l.addr : F) + alphaAt alphas 3 * (l.index : F)
  let payload : F :=
    if (firstRow && (l.label == LINEAR_HASH_LABEL)) || (l.label == RETURN_STATE_LABEL) then
      buildValue (alphaSlice alphas 4 STATE_WIDTH) l.state
    else if l.label == LINEAR_HASH_LABEL then
      match l.context with
      | .absorb nextState =>
          buildValue (alphaSlice alphas 8 RATE_LEN) (nextState.drop CAPACITY_LEN)
            - buildValue (alphaSlice alphas 8 RATE_LEN) (l.state.drop CAPACITY_LEN)
      | _ => 0
    else if l.label == RETURN_HASH_LABEL then
      buildValue (alphaSlice alphas 8 4) ((l.state.drop CAPACITY_LEN).take 4)
    else
      let bit : Nat := (l.index >>> 1) % 2
      let leftWord := buildValue (alphaSlice alphas 8 4) ((l.state.drop CAPACITY_LEN).take 4)
      let rightWord := buildValue (alphaSlice alphas 8 4) (l.state.drop (CAPACITY_LEN + 4))
      ((1 - bit : Nat) : F) * leftWord + (bit : F) * rightWord
  header + payload

/-- Reduction of a `BitwiseLookup`: opaque (see `BitwiseLookup`). -/
def BitwiseLookup.toValue {F : Type} [Field F] (l : BitwiseLookup F) (_alphas : List F) : F :=
  l.value

/-- Modelled from the spec: the §6 memory reduction
`α₀ + α₁·MEMORY_LABEL + α₂·ctx + α₃·addr + α₄·clk + Σ αᵢ₊₅·old[i] + Σ αᵢ₊₉·new[i]`. -/
def MemoryLookup.toValue {F : Type} [Field F] (l : MemoryLookup F) (alphas : List F) : F :=
  alphaAt alphas 0 + alphaAt alphas 1 * (MEMORY_LABEL : F) + alphaAt alphas 2 * (l.ctx : F)
    + alphaAt alphas 3 * (l.addr : F) + alphaAt alphas 4 * (l.clk : F)
    + buildValue (alphaSlice alphas 5 4) l.oldWord
    + buildValue (alphaSlice alphas 9 4) l.newWord

-- ================================================================================================
-- CHIPLETS BUS (processor/src/chiplets/bus/mod.rs)
-- ================================================================================================

/-- `ChipletsLookup`: the per-cycle hint stored in the bus hint map. -/
inductive ChipletsLookup where
  | request (i : Nat) : ChipletsLookup
  | response (j : Nat) : ChipletsLookup
  | requestAndResponse (i j : Nat) : ChipletsLookup
deriving DecidableEq

/-- `ChipletsLookupRow`: one reducible bus row. -/
inductive ChipletsLookupRow (F : Type) where
  | hasher (l : HasherLookup F) : ChipletsLookupRow F
  | hasherMulti (ls : List (HasherLookup F)) : ChipletsLookupRow F
  | bitwise (l : BitwiseLookup F) : ChipletsLookupRow F
  | memory (l : MemoryLookup F) : ChipletsLookupRow F
deriving DecidableEq

/-- `ChipletsLookupRow::to_value`: `HasherMulti` folds the product of its member
reductions starting from one; the other variants delegate. -/
def ChipletsLookupRow.toValue {F : Type} [Field F] (row : ChipletsLookupRow F)
    (alphas : List F) : F :=
  match row with
  | .hasherMulti ls => ls.foldl (fun acc l => acc * l.toValue alphas) 1
  | .hasher l => l.toValue alphas
  | .bitwise l => l.toValue alphas
  | .memory l => l.toValue alphas

/-- Key lookup in the hint map (`BTreeMap::get`); the map is represented as an
association list with at most one entry per key. -/
def hintFind (m : List (Nat × ChipletsLookup)) (k : Nat) : Option ChipletsLookup :=
  match m.find? (fun e => e.1 == k) with
  | some e => some e.2
  | none => none

/-- Key insertion in the hint map (`BTreeMap::insert`): replaces the value if the
key is present, otherwise appends the entry. -/
def hintInsert (m : List (Nat × ChipletsLookup)) (k : Nat) (v : ChipletsLookup) :
    List (Nat × ChipletsLookup) :=
  match m with
  | [] => [(k, v)]
  | e :: rest => if e.1 = k then (k, v) :: rest else e :: hintInsert rest k v

/-- The `entry(cycle).and_modify(..).or_insert(..)` step of `provide_lookup`: if a
`request` hint is present at the key it is upgraded to `requestAndResponse`; any
other present hint is left unchanged; an absent key gets a `response` hint. -/
def hintProvide (m : List (Nat × ChipletsLookup)) (k : Nat) (respIdx : Nat) :
    List (Nat × ChipletsLookup) :=
  match m with
  | [] => [(k, .response respIdx)]
  | e :: rest =>
    if e.1 = k then
      (match e.2 with
       | .request i => (k, ChipletsLookup.requestAndResponse i respIdx)
       | _ => e) :: rest
    else e :: hintProvide rest k respIdx

/-- `ChipletsBus`: hint map, request rows, response rows and the LIFO of queued
hasher requests. -/
structure ChipletsBus (F : Type) where
  lookupHints : List (Nat × ChipletsLookup) := []
  requestRows : List (ChipletsLookupRow F) := []
  responseRows : List (ChipletsLookupRow F) := []
  queuedRequests : List (HasherLookup F) := []
deriving DecidableEq

/-- `ChipletsBus::request_lookup`: records a request hint at `cycle` pointing at
the next request row index.  The source performs no collision check: an existing
hint at `cycle` is silently replaced (`BTreeMap::insert`). -/
def ChipletsBus.requestLookup {F : Type} (b : ChipletsBus F) (cycle : Nat) : ChipletsBus F :=
  { b with lookupHints := hintInsert b.lookupHints cycle (.request b.requestRows.length) }

/-- `ChipletsBus::provide_lookup`: records a response hint at `responseCycle`,
upgrading an existing request hint to `requestAndResponse`. -/
def ChipletsBus.provideLookup {F : Type} (b : ChipletsBus F) (responseCycle : Nat) :
    ChipletsBus F :=
  { b with lookupHints := hintProvide b.lookupHints responseCycle b.responseRows.length }

/-- `ChipletsBus::request_hasher_operation`: `debug_assert!`s that the slice has
2 or 4 lookups, then records the request and pushes a `HasherMulti` row.  `none`
models the debug failure (which aborts before any mutation). -/
def ChipletsBus.requestHasherOperation {F : Type} (b : ChipletsBus F)
    (lookups : List (HasherLookup F)) (cycle : Nat) : Option (ChipletsBus F) :=
  if lookups.length = 2 ∨ lookups.length = 4 then
    let b := b.requestLookup cycle
    some { b with requestRows := b.requestRows ++ [.hasherMulti lookups] }
  else
    none

/-- `ChipletsBus::request_hasher_lookup`: records the request hint and pushes a
single `Hasher` row. -/
def ChipletsBus.requestHasherLookup {F : Type} (b : ChipletsBus F) (lookup : HasherLookup F)
    (cycle : Nat) : ChipletsBus F :=
  let b := b.requestLookup cycle
  { b with requestRows := b.requestRows ++ [.hasher lookup] }

/-- `ChipletsBus::enqueue_hasher_request`: pushes the lookup onto the queue. -/
def ChipletsBus.enqueueHasherRequest {F : Type} (b : ChipletsBus F) (lookup : HasherLookup F) :
    ChipletsBus F :=
  { b with queuedRequests := b.queuedRequests ++ [lookup] }

/-- `ChipletsBus::send_queued_hasher_request`: pops the most recently queued
lookup (`Vec::pop` removes the last element) and sends it as a request at
`cycle`.  `debug_assert!(lookup.is_some())` fires on an empty queue: `none`
models that fatal failure, before anything is recorded on the bus. -/
def ChipletsBus.sendQueuedHasherRequest {F : Type} (b : ChipletsBus F) (cycle : Nat) :
    Option (ChipletsBus F) :=
  match b.queuedRequests.getLast? with
  | none => none
  | some lookup =>
      let b := { b with queuedRequests := b.queuedRequests.dropLast }
      some (b.requestHasherLookup lookup cycle)

/-- `ChipletsBus::provide_hasher_lookup`: records the response hint at
`responseCycle` and pushes a `Hasher` response row. -/
def ChipletsBus.provideHasherLookup {F : Type} (b : ChipletsBus F) (lookup : HasherLookup F)
    (responseCycle : Nat) : ChipletsBus F :=
  let b := b.provideLookup responseCycle
  { b with responseRows := b.responseRows ++ [.hasher lookup] }

/-- `ChipletsBus::request_bitwise_operation`. -/
def ChipletsBus.requestBitwiseOperation {F : Type} (b : ChipletsBus F) (lookup : BitwiseLookup F)
    (cycle : Nat) : ChipletsBus F :=
  let b := b.requestLookup cycle
  { b with requestRows := b.requestRows ++ [.bitwise lookup] }

/-- `ChipletsBus::provide_bitwise_operation`. -/
def ChipletsBus.provideBitwiseOperation {F : Type} (b : ChipletsBus F) (lookup : BitwiseLookup F)
    (responseCycle : Nat) : ChipletsBus F :=
  let b := b.provideLookup responseCycle
  { b with responseRows := b.responseRows ++ [.bitwise lookup] }

/-- `ChipletsBus::request_memory_operation`. -/
def ChipletsBus.requestMemoryOperation {F : Type} (b : ChipletsBus F) (lookup : MemoryLookup F)
    (cycle : Nat) : ChipletsBus F :=
  let b := b.requestLookup cycle
  { b with requestRows := b.requestRows ++ [.memory lookup] }

/-- `ChipletsBus::provide_memory_operation`. -/
def ChipletsBus.provideMemoryOperation {F : Type} (b : ChipletsBus F) (lookup : MemoryLookup F)
    (responseCycle : Nat) : ChipletsBus F :=
  let b := b.provideLookup responseCycle
  { b with responseRows := b.responseRows ++ [.memory lookup] }

-- ================================================================================================
-- HASH CHIPLET (processor/src/chiplets/hasher/mod.rs)
-- ================================================================================================

/-- Modelled from the spec: a `SiblingTableRow` `(index, sibling)` (the hasher
`aux_trace.rs` is not under src/).  The index is the `u64` node index the source
embeds with `Felt::new`. -/
structure SiblingTableRow (F : Type) where
  index : Nat
  sibling : Word F
deriving DecidableEq

/-- Modelled from the spec: one update recorded by the sibling-table auxiliary
trace builder (the hasher `aux_trace.rs` is not under src/): `sibling_added(step,
index, sibling)` or `sibling_removed(step, depth)`. -/
inductive SiblingTableUpdate (F : Type) where
  | siblingAdded (step : Nat) (index : Nat) (sibling : Word F) : SiblingTableUpdate F
  | siblingRemoved (step : Nat) (depth : Nat) : SiblingTableUpdate F
deriving DecidableEq

/-- Modelled from the spec: the logical effect of one sibling-table update on the
table (§4.3): `sibling_added` appends the row at the end; `sibling_removed(depth)`
removes the `depth`-th entry from the end of the table (the last entry being the
0-th from the end, per the source comment "an entry for the sibling with depth 2
would be in the second entry from the end of the table"). -/
def applySiblingUpdate {F : Type} (table : List (SiblingTableRow F)) :
    SiblingTableUpdate F → List (SiblingTableRow F)
  | .siblingAdded _ index sibling => table ++ [⟨index, sibling⟩]
  | .siblingRemoved _ depth => table.eraseIdx (table.length - 1 - depth)

/-- Folds a list of sibling-table updates over a table state. -/
def applySiblingUpdates {F : Type} (table : List (SiblingTableRow F))
    (updates : List (SiblingTableUpdate F)) : List (SiblingTableRow F) :=
  updates.foldl applySiblingUpdate table

/-- `Hasher`: the trace is modelled by its length only (`trace.rs` is not under
src/; §4.2 fixes that each permutation appends exactly 8 rows and that the row
address column is the 1-indexed running counter, which is what the chiplet logic
reads through `trace_len` and `next_row_addr`).  The auxiliary trace builder is
modelled by its recorded update list. -/
structure Hasher (F : Type) where
  traceLen : Nat := 0
  auxTrace : List (SiblingTableUpdate F) := []
  lookups : List (HasherLookup F) := []
deriving DecidableEq

/-- `Hasher::trace_len` (delegates to `HasherTrace::trace_len`). -/
def Hasher.trace_len {F : Type} (h : Hasher F) : Nat := h.traceLen

/-- Modelled from the spec: `HasherTrace::next_row_addr` (`trace.rs` is not under
src/): addresses are 1-indexed, so the next appended row gets `trace_len + 1`. -/
def Hasher.nextRowAddr {F : Type} (h : Hasher F) : Nat := h.traceLen + 1

/-- `Hasher::append_lookup`: a `Start` lookup is recorded before the operation's
rows, at `next_row_addr`; all other lookups are recorded right after the rows,
at `trace_len`. -/
def Hasher.appendLookup {F : Type} (h : Hasher F) (label : Nat) (state : HasherState F)
    (index : Nat) (context : HasherLookupContext F) : Hasher F :=
  let addr := match context with
    | .start => h.nextRowAddr
    | _ => h.trace_len
  { h with lookups := h.lookups ++ [⟨label, state, addr, index, context⟩] }

/-- Modelled from the spec: `HasherTrace::append_permutation` (`trace.rs` is not
under src/): appends the 8 rows of one permutation cycle — modelled as
`trace_len + 8` — and replaces the state with its image under the external
sponge permutation `perm` (the `vm_core` permutation, passed as a parameter).
The selector arguments populate trace columns the length-only model does not
track. -/
def Hasher.appendPermutation {F : Type} (perm : HasherState F → HasherState F) (h : Hasher F)
    (state : HasherState F) (_initSelectors _finalSelectors : Selectors) :
    HasherState F × Hasher F :=
  (perm state, { h with traceLen := h.traceLen + 8 })

/-- Modelled from the spec: `HasherTrace::append_permutation_with_index`: same as
`append_permutation`; the two node-index arguments populate the node-index
column, which the length-only model does not track. -/
def Hasher.appendPermutationWithIndex {F : Type} (perm : HasherState F → HasherState F)
    (h : Hasher F) (state : HasherState F) (_initSelectors _finalSelectors : Selectors)
    (_initIndex _restIndex : Nat) : HasherState F × Hasher F :=
  (perm state, { h with traceLen := h.traceLen + 8 })

/-- Modelled from the spec and the in-src tests: `init_state_from_words`
(`vm_core` is not under src/) builds `[8, 0, 0, 0] ++ w1 ++ w2`: the first
capacity element records the 8 rate elements being hashed (test `b_chip_merge`
reduces the hasher's first merge row with capacity `[8,0,0,0]`). -/
def initStateFromWords {F : Type} [Field F] (w1 w2 : Word F) : HasherState F :=
  [(8 : F), 0, 0, 0] ++ w1 ++ w2

/-- Modelled from the spec: `init_state` for span hashing: capacity element 0 is
the number of operation groups, the rest of the capacity is 0, and the rate is
the first batch's groups (§4.3). -/
def initState {F : Type} [Field F] (groups : List F) (numOpGroups : Nat) : HasherState F :=
  [(numOpGroups : F), 0, 0, 0] ++ groups

/-- Modelled from the spec: `absorb_into_state` adds the batch's groups into the
rate elementwise, leaving the capacity unchanged (§4.3; the in-src test helper
`absorb_state_from_decoder` adds into `state[CAPACITY_LEN + i]`). -/
def absorbIntoState {F : Type} [Field F] (state : HasherState F) (groups : List F) :
    HasherState F :=
  state.take CAPACITY_LEN ++ List.zipWith (fun a b => a + b) (state.drop CAPACITY_LEN) groups

/-- Modelled from the spec: `get_digest` returns the first four rate elements
(`h4..h7`). -/
def getDigest {F : Type} (state : HasherState F) : Word F :=
  (state.drop CAPACITY_LEN).take 4

/-- One batch of operations, represented by its `groups()` array of 8 field
elements (`OpBatch` lives outside the core; only `groups()` is consumed). -/
abbrev OpBatch (F : Type) := List F

/-- `get_selector_context_label`: maps a selector triple and a lookup context to
the operation label, if the triple is recognized in that context. -/
def getSelectorContextLabel {F : Type} (selectors : Selectors)
    (context : HasherLookupContext F) : Option Nat :=
  match context with
  | .start =>
    if selectors = LINEAR_HASH then some LINEAR_HASH_LABEL
    else if selectors = MP_VERIFY then some MP_VERIFY_LABEL
    else if selectors = MR_UPDATE_OLD then some MR_UPDATE_OLD_LABEL
    else if selectors = MR_UPDATE_NEW then some MR_UPDATE_NEW_LABEL
    else none
  | .ret =>
    if selectors = RETURN_HASH then some RETURN_HASH_LABEL
    else if selectors = RETURN_STATE then some RETURN_STATE_LABEL
    else none
  | _ =>
    if selectors = LINEAR_HASH then some LINEAR_HASH_LABEL
    else none

/-- `build_merge_state`: combines root and sibling in the order selected by the
index bit; any bit other than 0 or 1 panics (`none`). -/
def buildMergeState {F : Type} [Field F] (a b : Word F) (indexBit : Nat) :
    Option (HasherState F) :=
  match indexBit with
  | 0 => some (initStateFromWords a b)
  | 1 => some (initStateFromWords b a)
  | _ => none

/-- `MerklePathContext`. -/
inductive MerklePathContext where
  | mpVerify : MerklePathContext
  | mrUpdateOld : MerklePathContext
  | mrUpdateNew : MerklePathContext
deriving DecidableEq

/-- `MerklePathContext::main_selectors`. -/
def MerklePathContext.mainSelectors : MerklePathContext → Selectors
  | .mpVerify => MP_VERIFY
  | .mrUpdateOld => MR_UPDATE_OLD
  | .mrUpdateNew => MR_UPDATE_NEW

/-- `MerklePathContext::part_selectors`: the main selectors with the first
component replaced by zero. -/
def MerklePathContext.partSelectors (ctx : MerklePathContext) : Selectors :=
  (0, ctx.mainSelectors.2.1, ctx.mainSelectors.2.2)

/-- `Hasher::update_sibling_hints`: under `MrUpdateOld` records a
`sibling_added(step, index, sibling)` hint, under `MrUpdateNew` a
`sibling_removed(step, depth)` hint, at `step = trace_len`; `MpVerify` records
nothing. -/
def Hasher.updateSiblingHints {F : Type} (h : Hasher F) (context : MerklePathContext)
    (index : Nat) (sibling : Word F) (depth : Nat) : Hasher F :=
  let step := h.trace_len
  match context with
  | .mrUpdateOld => { h with auxTrace := h.auxTrace ++ [.siblingAdded step index sibling] }
  | .mrUpdateNew => { h with auxTrace := h.auxTrace ++ [.siblingRemoved step depth] }
  | .mpVerify => h

/-- `Hasher::verify_mp_leg`: builds the merge state from the least significant
index bit, records a `Start` lookup when the init selectors carry a start label,
appends the permutation (with the node-index column values of the source),
shifts the index right by one bit, records a `Return` lookup when the final
selectors carry a return label, and returns the digest together with the shifted
index. -/
def Hasher.verifyMpLeg {F : Type} [Field F] (perm : HasherState F → HasherState F)
    (h : Hasher F) (root sibling : Word F) (index : Nat)
    (initSelectors finalSelectors : Selectors) : Option (Word F × Nat × Hasher F) :=
  let indexBit := index % 2
  match buildMergeState root sibling indexBit with
  | none => none
  | some state =>
    let h := match getSelectorContextLabel (F := F) initSelectors .start with
      | some label => h.appendLookup label state index .start
      | none => h
    let initAndRest : Nat × Nat :=
      if initSelectors.1 = 0 then (index / 2, index / 2) else (index, index / 2)
    let stateAndHasher := h.appendPermutationWithIndex perm state initSelectors finalSelectors
      initAndRest.1 initAndRest.2
    let state := stateAndHasher.1
    let h := stateAndHasher.2
    let index := index / 2
    let h := match getSelectorContextLabel (F := F) finalSelectors .ret with
      | some label => h.appendLookup label state index .ret
      | none => h
    some (getDigest state, index, h)

/-- The loop of `Hasher::verify_merkle_path` over the second and later path
nodes: middle legs use `(part_selectors, main_selectors)`, the last leg uses
`(part_selectors, RETURN_HASH)`; each leg is preceded by its
`update_sibling_hints` call, and `depth` decrements per leg. -/
def Hasher.mpTail {F : Type} [Field F] (perm : HasherState F → HasherState F)
    (ctx : MerklePathContext) (h : Hasher F) (root : Word F) (index depth : Nat) :
    List (Word F) → Option (Word F × Hasher F)
  | [] => none
  | [sibling] =>
    let h := h.updateSiblingHints ctx index sibling depth
    match h.verifyMpLeg perm root sibling index ctx.partSelectors RETURN_HASH with
    | some (root1, _, h1) => some (root1, h1)
    | none => none
  | sibling :: next :: rest =>
    let h := h.updateSiblingHints ctx index sibling depth
    match h.verifyMpLeg perm root sibling index ctx.partSelectors ctx.mainSelectors with
    | some (root1, index1, h1) => Hasher.mpTail perm ctx h1 root1 index1 (depth - 1) (next :: rest)
    | none => none

/-- `Hasher::verify_merkle_path`: asserts the path is non-empty and
`index >> path.len() == 0`, then verifies the legs: a single-node path uses
`(main_selectors, RETURN_HASH)`; otherwise the first leg uses
`(main_selectors, main_selectors)` and the rest is `mpTail`.  `none` models the
assertion panics. -/
def Hasher.verifyMerklePath {F : Type} [Field F] (perm : HasherState F → HasherState F)
    (h : Hasher F) (value : Word F) (path : List (Word F)) (index : Nat)
    (context : MerklePathContext) : Option (Word F × Hasher F) :=
  if index >>> path.length ≠ 0 then none
  else
    match path with
    | [] => none
    | [sibling] =>
      let depth := 0
      let h := h.updateSiblingHints context index sibling depth
      match h.verifyMpLeg perm value sibling index context.mainSelectors RETURN_HASH with
      | some (root, _, h1) => some (root, h1)
      | none => none
    | sibling :: next :: rest =>
      let depth := (sibling :: next :: rest).length - 1
      let h := h.updateSiblingHints context index sibling depth
      match h.verifyMpLeg perm value sibling index context.mainSelectors
          context.mainSelectors with
      | some (root, index1, h1) =>
          Hasher.mpTail perm context h1 root index1 (depth - 1) (next :: rest)
      | none => none

/-- `Hasher::permute`: records the `Start` lookup, appends one permutation with
`(LINEAR_HASH, RETURN_STATE)` selectors, records the `Return` lookup, and returns
the start address, the post-permutation state, the new lookups and the updated
hasher. -/
def Hasher.permute {F : Type} [Field F] (perm : HasherState F → HasherState F) (h : Hasher F)
    (state : HasherState F) : Nat × HasherState F × List (HasherLookup F) × Hasher F :=
  let addr := h.nextRowAddr
  let initLookupIdx := h.lookups.length
  let h := h.appendLookup LINEAR_HASH_LABEL state 0 .start
  let stateAndHasher := h.appendPermutation perm state LINEAR_HASH RETURN_STATE
  let state := stateAndHasher.1
  let h := stateAndHasher.2
  let h := h.appendLookup RETURN_STATE_LABEL state 0 .ret
  (addr, state, h.lookups.drop initLookupIdx, h)

/-- `Hasher::merge`: hashes `h1 || h2` with one permutation using
`(LINEAR_HASH, RETURN_HASH)` selectors and returns the digest. -/
def Hasher.merge {F : Type} [Field F] (perm : HasherState F → HasherState F) (h : Hasher F)
    (h1 h2 : Word F) : Nat × Word F × List (HasherLookup F) × Hasher F :=
  let addr := h.nextRowAddr
  let initLookupIdx := h.lookups.length
  let state := initStateFromWords h1 h2
  let h := h.appendLookup LINEAR_HASH_LABEL state 0 .start
  let stateAndHasher := h.appendPermutation perm state LINEAR_HASH RETURN_HASH
  let state := stateAndHasher.1
  let h := stateAndHasher.2
  let h := h.appendLookup RETURN_HASH_LABEL state 0 .ret
  (addr, getDigest state, h.lookups.drop initLookupIdx, h)

/-- The loop of `Hasher::hash_span_block` over the second and later batches: each
batch is absorbed, an `Absorb` lookup is recorded with the pre-absorption state,
and a permutation appended with `(CONTINUE, ABSORB)` selectors — `(CONTINUE,
RETURN_HASH)` for the final batch. -/
def Hasher.spanRest {F : Type} [Field F] (perm : HasherState F → HasherState F) (h : Hasher F)
    (state : HasherState F) : List (OpBatch F) → Option (HasherState F × Hasher F)
  | [] => none
  | [batch] =>
    let state1 := absorbIntoState state batch
    let h := h.appendLookup LINEAR_HASH_LABEL state 0 (.absorb state1)
    let stateAndHasher := h.appendPermutation perm state1 (0, LINEAR_HASH.2.1, LINEAR_HASH.2.2)
      RETURN_HASH
    some (stateAndHasher.1, stateAndHasher.2)
  | batch :: next :: rest =>
    let state1 := absorbIntoState state batch
    let h := h.appendLookup LINEAR_HASH_LABEL state 0 (.absorb state1)
    let stateAndHasher := h.appendPermutation perm state1 (0, LINEAR_HASH.2.1, LINEAR_HASH.2.2)
      LINEAR_HASH
    Hasher.spanRest perm stateAndHasher.2 stateAndHasher.1 (next :: rest)

/-- `Hasher::hash_span_block`: sequential absorption hash of the operation
batches.  Indexing `op_batches[0]` panics on an empty batch list (`none`).  A
single batch takes one `(LINEAR_HASH, RETURN_HASH)` permutation; otherwise the
first permutation is `(LINEAR_HASH, ABSORB)` and the rest is `spanRest`.  The
`ABSORB` selectors equal `LINEAR_HASH` and `CONTINUE` is
`(0, LINEAR_HASH.1, LINEAR_HASH.2)` as in the source. -/
def Hasher.hashSpanBlock {F : Type} [Field F] (perm : HasherState F → HasherState F)
    (h : Hasher F) (opBatches : List (OpBatch F)) (numOpGroups : Nat) :
    Option (Nat × Word F × List (HasherLookup F) × Hasher F) :=
  match opBatches with
  | [] => none
  | batch0 :: rest =>
    let addr := h.nextRowAddr
    let initLookupIdx := h.lookups.length
    let state := initState batch0 numOpGroups
    let h := h.appendLookup LINEAR_HASH_LABEL state 0 .start
    match rest with
    | [] =>
      let stateAndHasher := h.appendPermutation perm state LINEAR_HASH RETURN_HASH
      let state := stateAndHasher.1
      let h := stateAndHasher.2
      let h := h.appendLookup RETURN_HASH_LABEL state 0 .ret
      some (addr, getDigest state, h.lookups.drop initLookupIdx, h)
    | batch1 :: rest1 =>
      let stateAndHasher := h.appendPermutation perm state LINEAR_HASH LINEAR_HASH
      match Hasher.spanRest perm stateAndHasher.2 stateAndHasher.1 (batch1 :: rest1) with
      | none => none
      | some (state, h) =>
        let h := h.appendLookup RETURN_HASH_LABEL state 0 .ret
        some (addr, getDigest state, h.lookups.drop initLookupIdx, h)

/-- `Hasher::build_merkle_root`: one Merkle path verification under `MpVerify`. -/
def Hasher.buildMerkleRoot {F : Type} [Field F] (perm : HasherState F → HasherState F)
    (h : Hasher F) (value : Word F) (path : List (Word F)) (index : Nat) :
    Option (Nat × Word F × List (HasherLookup F) × Hasher F) :=
  let addr := h.nextRowAddr
  let initLookupIdx := h.lookups.length
  match h.verifyMerklePath perm value path index .mpVerify with
  | some (root, h1) => some (addr, root, h1.lookups.drop initLookupIdx, h1)
  | none => none

/-- `Hasher::update_merkle_root`: two Merkle path verifications in sequence over
the same path and index, first under `MrUpdateOld` for the old value, then under
`MrUpdateNew` for the new value. -/
def Hasher.updateMerkleRoot {F : Type} [Field F] (perm : HasherState F → HasherState F)
    (h : Hasher F) (oldValue newValue : Word F) (path : List (Word F)) (index : Nat) :
    Option (Nat × Word F × Word F × List (HasherLookup F) × Hasher F) :=
  let addr := h.nextRowAddr
  let initLookupIdx := h.lookups.length
  match h.verifyMerklePath perm oldValue path index .mrUpdateOld with
  | none => none
  | some (oldRoot, h1) =>
    match h1.verifyMerklePath perm newValue path index .mrUpdateNew with
    | none => none
    | some (newRoot, h2) =>
      some (addr, oldRoot, newRoot, h2.lookups.drop initLookupIdx, h2)

/-- Modelled from the spec and the in-src tests: `HasherLookup::cycle`
(`lookups.rs` is not under src/).  The response cycle of a lookup is the 0-based
trace row holding the lookup row, i.e. `addr - 1` for the 1-indexed `addr` (test
`b_chip_span` has the hasher provide the `addr = 1` and `addr = 8` lookups at
trace rows 0 and 7, and `provide_hasher_lookup` documents `response_cycle` as
the row of the execution trace that contains the lookup row). -/
def HasherLookup.cycle {F : Type} (l : HasherLookup F) : Nat := l.addr - 1

/-- `Hasher::fill_trace`: provides every stored lookup to the bus, in recorded
order, at its `cycle()`, and returns the sibling-table auxiliary builder.  The
copying of the trace columns into the fragment is a pure data move of columns the
length-only trace model does not track, and it touches neither the bus nor the
auxiliary builder. -/
def Hasher.fillTrace {F : Type} [Field F] (h : Hasher F) (bus : ChipletsBus F) :
    ChipletsBus F × List (SiblingTableUpdate F) :=
  (h.lookups.foldl (fun b l => b.provideHasherLookup l l.cycle) bus, h.auxTrace)

-- ================================================================================================
-- SPECIFICATION-LEVEL DESCRIPTIONS OF THE MERKLE PROTOCOL
-- ================================================================================================

/-- The start-context label of a Merkle path context. -/
def MerklePathContext.startLabel : MerklePathContext → Nat
  | .mpVerify => MP_VERIFY_LABEL
  | .mrUpdateOld => MR_UPDATE_OLD_LABEL
  | .mrUpdateNew => MR_UPDATE_NEW_LABEL

/-- The sibling-table updates recorded by one Merkle leg at trace step `t` with
node index `index` and depth `depth`: an insertion of `(index, sibling)` under
`MrUpdateOld`, a removal of the `depth`-th entry from the end under
`MrUpdateNew`, nothing under `MpVerify`. -/
def legHint {F : Type} (ctx : MerklePathContext) (t index : Nat) (sibling : Word F)
    (depth : Nat) : List (SiblingTableUpdate F) :=
  match ctx with
  | .mrUpdateOld => [.siblingAdded t index sibling]
  | .mrUpdateNew => [.siblingRemoved t depth]
  | .mpVerify => []

/-- The sibling-table updates recorded along a whole Merkle path: leg `k`
records its hint at trace step `t + 8k`, with the node index shifted right `k`
bits and the depth decremented `k` times. -/
def legUpdates {F : Type} (ctx : MerklePathContext) :
    Nat → Nat → Nat → List (Word F) → List (SiblingTableUpdate F)
  | _, _, _, [] => []
  | t, index, depth, s :: ss =>
      legHint ctx t index s depth ++ legUpdates ctx (t + 8) (index / 2) (depth - 1) ss

/-- The sibling rows inserted by the `MrUpdateOld` half of a root update: one
row per leg, holding the leg's node index and sibling. -/
def addedRows {F : Type} : Nat → List (Word F) → List (SiblingTableRow F)
  | _, [] => []
  | index, s :: ss => SiblingTableRow.mk index s :: addedRows (index / 2) ss

/-- The §8 address discipline of one lookup: a `Start` lookup sits on the first
row of a permutation cycle (`addr ≡ 1 (mod 8)`), any other lookup on the last
row (`addr ≡ 0 (mod 8)` and, being 1-indexed, nonzero). -/
def addrOk {F : Type} : HasherLookup F → Bool := fun l =>
  match l.context with
  | .start => l.addr % 8 == 1
  | _ => (l.addr % 8 == 0) && (l.addr != 0)

/-- A hasher state whose trace length is a whole number of permutation cycles
and all of whose recorded lookups obey the address discipline. -/
def Hasher.WellAddressed {F : Type} (h : Hasher F) : Prop :=
  h.traceLen % 8 = 0 ∧ ∀ l ∈ h.lookups, addrOk l = true

-- ================================================================================================
-- AUXILIARY COLUMN (bus aux_trace.rs, modelled from the spec)
-- ================================================================================================

/-- `AuxTraceBuilder` for the bus: the hint map entries together with the request
and response rows (`into_aux_builder` moves all three out of the bus). -/
structure AuxTraceBuilder (F : Type) where
  lookupHints : List (Nat × ChipletsLookup)
  requestRows : List (ChipletsLookupRow F)
  responseRows : List (ChipletsLookupRow F)
deriving DecidableEq

/-- `ChipletsBus::into_aux_builder`.  The source collects the `BTreeMap` into a
key-sorted vector; the model keeps the association list, which agrees on every
key lookup since keys are unique. -/
def ChipletsBus.intoAuxBuilder {F : Type} (b : ChipletsBus F) : AuxTraceBuilder F :=
  ⟨b.lookupHints, b.requestRows, b.responseRows⟩

/-- Reduction of the `i`-th request row (an out-of-range index yields the empty
`HasherMulti` row, which reduces to 1 and never occurs for well-formed hints). -/
def AuxTraceBuilder.requestValueAt {F : Type} [Field F] (b : AuxTraceBuilder F)
    (alphas : List F) (i : Nat) : F :=
  (b.requestRows.getD i (.hasherMulti [])).toValue alphas

/-- Reduction of the `j`-th response row. -/
def AuxTraceBuilder.responseValueAt {F : Type} [Field F] (b : AuxTraceBuilder F)
    (alphas : List F) (j : Nat) : F :=
  (b.responseRows.getD j (.hasherMulti [])).toValue alphas

/-- The multiplicative contribution of one hint: responses are multiplied in,
requests are divided out. -/
def entryFactor {F : Type} [Field F] (reqVal respVal : Nat → F) : ChipletsLookup → F
  | .request i => (reqVal i)⁻¹
  | .response j => respVal j
  | .requestAndResponse i j => respVal j * (reqVal i)⁻¹

/-- The per-cycle factor determined by a hint list: 1 on cycles with no hint. -/
def hintsFactorAt {F : Type} [Field F] (reqVal respVal : Nat → F)
    (hints : List (Nat × ChipletsLookup)) (r : Nat) : F :=
  match hintFind hints r with
  | none => 1
  | some e => entryFactor reqVal respVal e

/-- Modelled from the spec: the §4.1 per-row factor of the `b_chip` recurrence,
`Π(responses at r) / Π(requests at r)` (the bus `aux_trace.rs` is not under
src/). -/
def AuxTraceBuilder.cycleFactor {F : Type} [Field F] (b : AuxTraceBuilder F) (alphas : List F)
    (r : Nat) : F :=
  hintsFactorAt (b.requestValueAt alphas) (b.responseValueAt alphas) b.lookupHints r

/-- Running product of the first `n` per-cycle factors. -/
def prodUpTo {F : Type} [Field F] (f : Nat → F) : Nat → F
  | 0 => 1
  | n + 1 => prodUpTo f n * f n

/-- Modelled from the spec: the `b_chip` column over `L` trace rows, built by the
§4.1 recurrence `b_chip[0] = 1`, `b_chip[r+1] = b_chip[r] · Π(responses at r) /
Π(requests at r)` (the bus `aux_trace.rs` is not under src/). -/
def AuxTraceBuilder.bChip {F : Type} [Field F] (b : AuxTraceBuilder F) (alphas : List F)
    (L : Nat) : List F :=
  (List.range L).map (prodUpTo (b.cycleFactor alphas))

/-- The request-row index referenced by a hint, if any. -/
def hintRequestIdx : ChipletsLookup → Option Nat
  | .request i => some i
  | .requestAndResponse i _ => some i
  | _ => none

/-- The response-row index referenced by a hint, if any. -/
def hintResponseIdx : ChipletsLookup → Option Nat
  | .response j => some j
  | .requestAndResponse _ j => some j
  | _ => none

/-- Reductions of all hint-referenced request rows, in hint order. -/
def AuxTraceBuilder.requestValues {F : Type} [Field F] (b : AuxTraceBuilder F)
    (alphas : List F) : List F :=
  (b.lookupHints.filterMap (fun e => hintRequestIdx e.2)).map (b.requestValueAt alphas)

/-- Reductions of all hint-referenced response rows, in hint order. -/
def AuxTraceBuilder.responseValues {F : Type} [Field F] (b : AuxTraceBuilder F)
    (alphas : List F) : List F :=
  (b.lookupHints.filterMap (fun e => hintResponseIdx e.2)).map (b.responseValueAt alphas)

/-- An honest execution under challenges `alphas`: the multiset of request-row
reductions referenced by the hints equals the multiset of response-row
reductions (requests are a permutation of responses). -/
def AuxTraceBuilder.Honest {F : Type} [Field F] (b : AuxTraceBuilder F)
    (alphas : List F) : Prop :=
  (b.requestValues alphas : Multiset F) = (b.responseValues alphas : Multiset F)

-- ================================================================================================
-- CONCRETE WITNESS DATA
-- ================================================================================================

instance : Fact (Nat.Prime 5) := ⟨by norm_num⟩

/-- The concrete prime field used to evaluate the definitions in witnesses. -/
abbrev F5 := ZMod 5

/-- The builder of the concrete honest single-lookup execution used as the
witness for the auxiliary-column contract. -/
def witnessBuilder : AuxTraceBuilder F5 :=
  let lookup : HasherLookup F5 := ⟨LINEAR_HASH_LABEL, List.replicate 12 0, 1, 0, .start⟩
  ⟨[(0, .requestAndResponse 0 0)], [.hasher lookup], [.hasher lookup]⟩

/-- A concrete hasher that has run one `permute` from the empty state: its two
recorded lookups have addresses 1 and 8. -/
def c7hasher : Hasher F5 :=
  (Hasher.permute (fun s => s) ({} : Hasher F5) (List.replicate 12 0)).2.2.2

/-- A concrete two-node Merkle path over `ZMod 5`. -/
def c2path : List (Word F5) := [[1, 0, 0, 0], [2, 0, 0, 0]]

-- ================================================================================================
-- HELPER LEMMAS: the grand product of the bus hints
-- ================================================================================================

lemma hintFind_nil (k : Nat) : hintFind [] k = none := rfl

lemma hintFind_cons (e : Nat × ChipletsLookup) (rest : List (Nat × ChipletsLookup)) (k : Nat) :
    hintFind (e :: rest) k = if e.1 = k then some e.2 else hintFind rest k := by
  by_cases h : e.1 = k
  · have hb : (e.1 == k) = true := by simp [h]
    simp [hintFind, List.find?, hb, h]
  · have hb : (e.1 == k) = false := by simp [h]
    simp [hintFind, List.find?, hb, h]

lemma hintFind_eq_none {m : List (Nat × ChipletsLookup)} {k : Nat}
    (h : k ∉ m.map Prod.fst) : hintFind m k = none := by
  induction m with
  | nil => rfl
  | cons e rest ih =>
    simp only [List.map_cons, List.mem_cons] at h
    push_neg at h
    rw [hintFind_cons, if_neg (fun hh => h.1 hh.symm)]
    exact ih h.2

lemma hintsFactorAt_nil {F : Type} [Field F] (reqVal respVal : Nat → F) (r : Nat) :
    hintsFactorAt reqVal respVal [] r = 1 := rfl

lemma hintsFactorAt_cons {F : Type} [Field F] (reqVal respVal : Nat → F)
    (e : Nat × ChipletsLookup) (rest : List (Nat × ChipletsLookup)) (r : Nat) :
    hintsFactorAt reqVal respVal (e :: rest) r =
      if e.1 = r then entryFactor reqVal respVal e.2
      else hintsFactorAt reqVal respVal rest r := by
  unfold hintsFactorAt
  rw [hintFind_cons]
  by_cases h : e.1 = r <;> simp [h]

/-- With unique keys that all lie below `M`, the product of the per-cycle factors
over the first `M` cycles is the product of the entry factors of the hints. -/
lemma prod_range_hintsFactor {F : Type} [Field F] (reqVal respVal : Nat → F)
    (hints : List (Nat × ChipletsLookup)) (M : Nat)
    (hnodup : (hints.map Prod.fst).Nodup) (hlt : ∀ e ∈ hints, e.1 < M) :
    ∏ r ∈ Finset.range M, hintsFactorAt reqVal respVal hints r
      = (hints.map (fun e => entryFactor reqVal respVal e.2)).prod := by
  induction hints with
  | nil => simp [hintsFactorAt_nil]
  | cons e rest ih =>
    simp only [List.map_cons, List.nodup_cons] at hnodup
    have hkey : e.1 ∉ rest.map Prod.fst := hnodup.1
    have hmem : e.1 ∈ Finset.range M := Finset.mem_range.mpr (hlt e (by simp))
    have hrest : ∀ x ∈ rest, x.1 < M := fun x hx => hlt x (List.mem_cons_of_mem _ hx)
    have hfe : ∀ r, hintsFactorAt reqVal respVal (e :: rest) r =
        if e.1 = r then entryFactor reqVal respVal e.2
        else hintsFactorAt reqVal respVal rest r := hintsFactorAt_cons reqVal respVal e rest
    calc ∏ r ∈ Finset.range M, hintsFactorAt reqVal respVal (e :: rest) r
        = hintsFactorAt reqVal respVal (e :: rest) e.1
            * ∏ r ∈ (Finset.range M).erase e.1, hintsFactorAt reqVal respVal (e :: rest) r := by
          rw [Finset.mul_prod_erase _ _ hmem]
      _ = entryFactor reqVal respVal e.2
            * ∏ r ∈ (Finset.range M).erase e.1, hintsFactorAt reqVal respVal rest r := by
          rw [hfe e.1]
          simp only [if_pos rfl]
          congr 1
          refine Finset.prod_congr rfl (fun r hr => ?_)
          rw [hfe r]
          have : e.1 ≠ r := fun h => (Finset.ne_of_mem_erase hr) h.symm
          simp [this]
      _ = entryFactor reqVal respVal e.2
            * ∏ r ∈ Finset.range M, hintsFactorAt reqVal respVal rest r := by
          congr 1
          have hone : hintsFactorAt reqVal respVal rest e.1 = 1 := by
            unfold hintsFactorAt
            rw [hintFind_eq_none hkey]
          rw [← Finset.mul_prod_erase _ _ hmem, hone, one_mul]
      _ = entryFactor reqVal respVal e.2
            * (rest.map (fun x => entryFactor reqVal respVal x.2)).prod := by
          rw [ih hnodup.2 hrest]
      _ = ((e :: rest).map (fun x => entryFactor reqVal respVal x.2)).prod := by
          simp

/-- The product of the entry factors is the product of the referenced response
reductions divided by the product of the referenced request reductions. -/
lemma prod_entryFactor {F : Type} [Field F] (reqVal respVal : Nat → F)
    (hints : List (Nat × ChipletsLookup)) :
    (hints.map (fun e => entryFactor reqVal respVal e.2)).prod
      = ((hints.filterMap (fun e => hintResponseIdx e.2)).map respVal).prod
        * (((hints.filterMap (fun e => hintRequestIdx e.2)).map reqVal).prod)⁻¹ := by
  induction hints with
  | nil => simp
  | cons e rest ih =>
    rcases e with ⟨k, hint⟩
    cases hint with
    | request i =>
      simp only [List.map_cons, List.prod_cons, ih, List.filterMap_cons]
      simp only [entryFactor, hintRequestIdx, hintResponseIdx]
      simp only [List.map_cons, List.prod_cons, mul_inv]
      ring
    | response j =>
      simp only [List.map_cons, List.prod_cons, ih, List.filterMap_cons]
      simp only [entryFactor, hintRequestIdx, hintResponseIdx]
      simp only [List.map_cons, List.prod_cons]
      ring
    | requestAndResponse i j =>
      simp only [List.map_cons, List.prod_cons, ih, List.filterMap_cons]
      simp only [entryFactor, hintRequestIdx, hintResponseIdx]
      simp only [List.map_cons, List.prod_cons, mul_inv]
      ring

lemma prodUpTo_eq_prod {F : Type} [Field F] (f : Nat → F) (n : Nat) :
    prodUpTo f n = ∏ r ∈ Finset.range n, f r := by
  induction n with
  | zero => rfl
  | succ n ih => rw [prodUpTo, ih, Finset.prod_range_succ]

lemma bChip_getD {F : Type} [Field F] (b : AuxTraceBuilder F) (alphas : List F)
    {L r : Nat} (h : r < L) :
    (b.bChip alphas L).getD r 0 = prodUpTo (b.cycleFactor alphas) r := by
  unfold AuxTraceBuilder.bChip
  rw [List.getD_eq_getElem?_getD, List.getElem?_map, List.getElem?_range h]
  rfl

-- ================================================================================================
-- CLAIM THEOREMS
-- ================================================================================================

/-- C1: for every honest execution (with unique hint cycles, all before the
padding row `M`, and no vanishing request reduction), the emitted `b_chip`
column has length equal to the main trace length `L`, starts at 1, each next
entry equals the previous entry multiplied by the per-cycle factor
`Π(responses at r) / Π(requests at r)`, and the final non-padding entry
`b_chip[M]` equals 1. -/
theorem bChip_column_contract {F : Type} [Field F] (b : AuxTraceBuilder F) (alphas : List F)
    (L M : Nat)
    (hnodup : (b.lookupHints.map Prod.fst).Nodup)
    (hlt : ∀ e ∈ b.lookupHints, e.1 < M)
    (hML : M < L)
    (hhonest : b.Honest alphas)
    (hnz : ∀ x ∈ b.requestValues alphas, x ≠ 0) :
    (b.bChip alphas L).length = L
    ∧ (b.bChip alphas L).getD 0 0 = 1
    ∧ (∀ r, r + 1 < L →
        (b.bChip alphas L).getD (r + 1) 0
          = (b.bChip alphas L).getD r 0 * b.cycleFactor alphas r)
    ∧ (b.bChip alphas L).getD M 0 = 1 := by
  refine ⟨?_, ?_, ?_, ?_⟩
  · simp [AuxTraceBuilder.bChip]
  · rw [bChip_getD b alphas (Nat.lt_of_le_of_lt (Nat.zero_le M) hML)]
    rfl
  · intro r hr
    rw [bChip_getD b alphas hr, bChip_getD b alphas (by omega)]
    rfl
  · rw [bChip_getD b alphas hML, prodUpTo_eq_prod]
    have hfac : ∀ r, b.cycleFactor alphas r
        = hintsFactorAt (b.requestValueAt alphas) (b.responseValueAt alphas) b.lookupHints r :=
      fun _ => rfl
    calc ∏ r ∈ Finset.range M, b.cycleFactor alphas r
        = ∏ r ∈ Finset.range M,
            hintsFactorAt (b.requestValueAt alphas) (b.responseValueAt alphas)
              b.lookupHints r := by
          exact Finset.prod_congr rfl (fun r _ => hfac r)
      _ = (b.lookupHints.map
            (fun e => entryFactor (b.requestValueAt alphas) (b.responseValueAt alphas)
              e.2)).prod := prod_range_hintsFactor _ _ _ M hnodup hlt
      _ = (b.responseValues alphas).prod * ((b.requestValues alphas).prod)⁻¹ :=
          prod_entryFactor _ _ _
      _ = 1 := by
          have hprod : (b.requestValues alphas).prod = (b.responseValues alphas).prod := by
            have := congrArg Multiset.prod hhonest
            simpa using this
          have hne : (b.requestValues alphas).prod ≠ 0 :=
            List.prod_ne_zero (fun h0 => hnz 0 h0 rfl)
          rw [← hprod]
          exact mul_inv_cancel₀ hne

/-- Witness for C1: a one-hint honest execution over `ZMod 5` with `L = 2`,
`M = 1` satisfies all the hypotheses, and its `b_chip` entry at the final
non-padding row is 1. -/
theorem bChip_column_contract_witness :
    (witnessBuilder.bChip [1] 2).getD 1 0 = 1 :=
  (bChip_column_contract witnessBuilder [1] 2 1 (by decide) (by decide) (by decide)
    (by unfold AuxTraceBuilder.Honest; decide) (by decide)).2.2.2

/-- Folding multiplication of reductions over a list, starting from `acc`,
yields `acc` times the product of the reductions. -/
lemma foldl_mul_toValue {F : Type} [Field F] (alphas : List F) (ls : List (HasherLookup F)) :
    ∀ acc : F, ls.foldl (fun a l => a * l.toValue alphas) acc
      = acc * (ls.map (fun l => l.toValue alphas)).prod := by
  induction ls with
  | nil => intro acc; simp
  | cons l rest ih => intro acc; simp only [List.foldl_cons, ih, List.map_cons,
      List.prod_cons, mul_assoc]

/-- C3: for every list of hasher lookups and every challenge vector, the
reduction of a `HasherMulti` bus row equals the product over its members of the
reduction of the corresponding single-lookup `Hasher` row under the same
challenges. -/
theorem hasherMulti_toValue_eq_prod {F : Type} [Field F] (ls : List (HasherLookup F))
    (alphas : List F) :
    (ChipletsLookupRow.hasherMulti ls).toValue alphas
      = (ls.map (fun l => (ChipletsLookupRow.hasher l).toValue alphas)).prod := by
  show ls.foldl (fun a l => a * l.toValue alphas) 1 = _
  rw [foldl_mul_toValue, one_mul]
  rfl

/-- Looking up the inserted key finds the inserted value. -/
lemma hintFind_hintInsert_self (m : List (Nat × ChipletsLookup)) (k : Nat)
    (v : ChipletsLookup) : hintFind (hintInsert m k v) k = some v := by
  induction m with
  | nil =>
    have hb : (k == k) = true := by simp
    simp [hintInsert, hintFind, List.find?, hb]
  | cons e rest ih =>
    by_cases h : e.1 = k
    · have hb : (k == k) = true := by simp
      simp [hintInsert, h, hintFind, List.find?, hb]
    · have hb : (e.1 == k) = false := by simp [h]
      simp only [hintInsert, if_neg h]
      rw [hintFind_cons, if_neg h]
      exact ih

/-- C8 (amended): a second `request_lookup` at the same cycle does not fail;
the source has no debug assertion there, and the `BTreeMap::insert` silently
replaces the hint, so after two `request_hasher_lookup` calls at one cycle the
hint references the second request row while both request rows remain stored. -/
theorem request_lookup_same_cycle_overwrites {F : Type} [Field F] (b : ChipletsBus F)
    (l l' : HasherLookup F) (cycle : Nat) :
    hintFind ((b.requestHasherLookup l cycle).requestHasherLookup l' cycle).lookupHints cycle
      = some (.request (b.requestRows.length + 1))
    ∧ ((b.requestHasherLookup l cycle).requestHasherLookup l' cycle).requestRows
      = b.requestRows ++ [.hasher l, .hasher l'] := by
  constructor
  · show hintFind (hintInsert _ cycle _) cycle = _
    rw [hintFind_hintInsert_self]
    simp [ChipletsBus.requestHasherLookup, ChipletsBus.requestLookup]
  · simp [ChipletsBus.requestHasherLookup, ChipletsBus.requestLookup]

/-- C8 counterexample: the claim that the second same-cycle request fails is
false at a concrete input — on the empty bus, two `request_hasher_lookup` calls
at cycle 0 both complete, leaving a hint that references the second request row
(`request 1`) and two stored request rows. -/
theorem request_lookup_same_cycle_no_failure :
    (((({} : ChipletsBus F5).requestHasherLookup
          ⟨LINEAR_HASH_LABEL, List.replicate 12 0, 1, 0, .start⟩ 0).requestHasherLookup
          ⟨RETURN_HASH_LABEL, List.replicate 12 0, 8, 0, .ret⟩ 0).lookupHints
        = [(0, .request 1)])
    ∧ (((({} : ChipletsBus F5).requestHasherLookup
          ⟨LINEAR_HASH_LABEL, List.replicate 12 0, 1, 0, .start⟩ 0).requestHasherLookup
          ⟨RETURN_HASH_LABEL, List.replicate 12 0, 8, 0, .ret⟩ 0).requestRows.length = 2) := by
  decide

/-- C9: `send_queued_hasher_request` fails (fatally, recording nothing — the
failing branch returns no bus state at all) exactly when the queue of deferred
hasher requests is empty. -/
theorem send_queued_underflow_fails {F : Type} [Field F] (b : ChipletsBus F) (cycle : Nat) :
    b.sendQueuedHasherRequest cycle = none ↔ b.queuedRequests = [] := by
  unfold ChipletsBus.sendQueuedHasherRequest
  cases hq : b.queuedRequests.getLast? with
  | none =>
    simpa using List.getLast?_eq_none_iff.mp hq
  | some lookup =>
    have hne : b.queuedRequests ≠ [] := by
      intro hl
      rw [hl] at hq
      cases hq
    simpa using hne

-- ================================================================================================
-- HELPER LEMMAS: Merkle legs
-- ================================================================================================

lemma partSelectors_start_label {F : Type} (ctx : MerklePathContext) :
    getSelectorContextLabel (F := F) ctx.partSelectors .start = none := by
  cases ctx <;> rfl

lemma mainSelectors_start_label {F : Type} (ctx : MerklePathContext) :
    getSelectorContextLabel (F := F) ctx.mainSelectors .start = some ctx.startLabel := by
  cases ctx <;> rfl

lemma mainSelectors_ret_label {F : Type} (ctx : MerklePathContext) :
    getSelectorContextLabel (F := F) ctx.mainSelectors .ret = none := by
  cases ctx <;> rfl

lemma returnHash_ret_label {F : Type} :
    getSelectorContextLabel (F := F) RETURN_HASH .ret = some RETURN_HASH_LABEL := rfl

lemma updateSiblingHints_eq {F : Type} (h : Hasher F) (ctx : MerklePathContext)
    (index : Nat) (s : Word F) (depth : Nat) :
    h.updateSiblingHints ctx index s depth
      = { h with auxTrace := h.auxTrace ++ legHint ctx h.traceLen index s depth } := by
  cases ctx <;> simp [Hasher.updateSiblingHints, Hasher.trace_len, legHint]

/-- A continuation leg `(part_selectors, main_selectors)`: no lookup is
recorded; the trace grows by 8 rows and the index loses its low bit. -/
lemma verifyMpLeg_part_main {F : Type} [Field F] (perm : HasherState F → HasherState F)
    (ctx : MerklePathContext) (h : Hasher F) (root sibling : Word F) (index : Nat) :
    ∃ root1,
      h.verifyMpLeg perm root sibling index ctx.partSelectors ctx.mainSelectors
        = some (root1, index / 2, { h with traceLen := h.traceLen + 8 }) := by
  rcases Nat.mod_two_eq_zero_or_one index with h2 | h2
  · exact ⟨getDigest (perm (initStateFromWords root sibling)),
      by simp [Hasher.verifyMpLeg, h2, buildMergeState, partSelectors_start_label,
        mainSelectors_ret_label, Hasher.appendPermutationWithIndex]⟩
  · exact ⟨getDigest (perm (initStateFromWords sibling root)),
      by simp [Hasher.verifyMpLeg, h2, buildMergeState, partSelectors_start_label,
        mainSelectors_ret_label, Hasher.appendPermutationWithIndex]⟩

/-- A final continuation leg `(part_selectors, RETURN_HASH)`: the return lookup
is recorded at the last appended row with the shifted index. -/
lemma verifyMpLeg_part_return {F : Type} [Field F] (perm : HasherState F → HasherState F)
    (ctx : MerklePathContext) (h : Hasher F) (root sibling : Word F) (index : Nat) :
    ∃ root1 st,
      h.verifyMpLeg perm root sibling index ctx.partSelectors RETURN_HASH
        = some (root1, index / 2,
            { h with traceLen := h.traceLen + 8,
                     lookups := h.lookups
                       ++ [⟨RETURN_HASH_LABEL, st, h.traceLen + 8, index / 2, .ret⟩] }) := by
  rcases Nat.mod_two_eq_zero_or_one index with h2 | h2
  · exact ⟨getDigest (perm (initStateFromWords root sibling)), perm (initStateFromWords root sibling),
      by simp [Hasher.verifyMpLeg, h2, buildMergeState, partSelectors_start_label,
        returnHash_ret_label, Hasher.appendPermutationWithIndex, Hasher.appendLookup,
        Hasher.trace_len]⟩
  · exact ⟨getDigest (perm (initStateFromWords sibling root)), perm (initStateFromWords sibling root),
      by simp [Hasher.verifyMpLeg, h2, buildMergeState, partSelectors_start_label,
        returnHash_ret_label, Hasher.appendPermutationWithIndex, Hasher.appendLookup,
        Hasher.trace_len]⟩

/-- A first leg `(main_selectors, main_selectors)` of a multi-leg path: the
start lookup is recorded at the next row address with the unshifted index. -/
lemma verifyMpLeg_main_main {F : Type} [Field F] (perm : HasherState F → HasherState F)
    (ctx : MerklePathContext) (h : Hasher F) (root sibling : Word F) (index : Nat) :
    ∃ root1 st,
      h.verifyMpLeg perm root sibling index ctx.mainSelectors ctx.mainSelectors
        = some (root1, index / 2,
            { h with traceLen := h.traceLen + 8,
                     lookups := h.lookups
                       ++ [⟨ctx.startLabel, st, h.traceLen + 1, index, .start⟩] }) := by
  rcases Nat.mod_two_eq_zero_or_one index with h2 | h2
  · exact ⟨getDigest (perm (initStateFromWords root sibling)), initStateFromWords root sibling,
      by simp [Hasher.verifyMpLeg, h2, buildMergeState, mainSelectors_start_label,
        mainSelectors_ret_label, Hasher.appendPermutationWithIndex, Hasher.appendLookup,
        Hasher.nextRowAddr]⟩
  · exact ⟨getDigest (perm (initStateFromWords sibling root)), initStateFromWords sibling root,
      by simp [Hasher.verifyMpLeg, h2, buildMergeState, mainSelectors_start_label,
        mainSelectors_ret_label, Hasher.appendPermutationWithIndex, Hasher.appendLookup,
        Hasher.nextRowAddr]⟩

/-- A single-leg path `(main_selectors, RETURN_HASH)`: both the start and the
return lookup are recorded. -/
lemma verifyMpLeg_main_return {F : Type} [Field F] (perm : HasherState F → HasherState F)
    (ctx : MerklePathContext) (h : Hasher F) (root sibling : Word F) (index : Nat) :
    ∃ root1 st1 st2,
      h.verifyMpLeg perm root sibling index ctx.mainSelectors RETURN_HASH
        = some (root1, index / 2,
            { h with traceLen := h.traceLen + 8,
                     lookups := h.lookups
                       ++ [⟨ctx.startLabel, st1, h.traceLen + 1, index, .start⟩,
                           ⟨RETURN_HASH_LABEL, st2, h.traceLen + 8, index / 2, .ret⟩] }) := by
  rcases Nat.mod_two_eq_zero_or_one index with h2 | h2
  · exact ⟨getDigest (perm (initStateFromWords root sibling)), initStateFromWords root sibling,
      perm (initStateFromWords root sibling),
      by simp [Hasher.verifyMpLeg, h2, buildMergeState, mainSelectors_start_label,
        returnHash_ret_label, Hasher.appendPermutationWithIndex, Hasher.appendLookup,
        Hasher.nextRowAddr, Hasher.trace_len]⟩
  · exact ⟨getDigest (perm (initStateFromWords sibling root)), initStateFromWords sibling root,
      perm (initStateFromWords sibling root),
      by simp [Hasher.verifyMpLeg, h2, buildMergeState, mainSelectors_start_label,
        returnHash_ret_label, Hasher.appendPermutationWithIndex, Hasher.appendLookup,
        Hasher.nextRowAddr, Hasher.trace_len]⟩

/-- Characterization of `mpTail` on a non-empty tail: 8 trace rows per leg,
sibling updates as in `legUpdates`, and exactly one return lookup, recorded at
the final row address with the fully shifted index. -/
lemma mpTail_spec {F : Type} [Field F] (perm : HasherState F → HasherState F)
    (ctx : MerklePathContext) :
    ∀ (ss : List (Word F)), ss ≠ [] → ∀ (h : Hasher F) (root : Word F) (index depth : Nat),
    ∃ root1 st,
      Hasher.mpTail perm ctx h root index depth ss = some (root1,
        { traceLen := h.traceLen + 8 * ss.length,
          auxTrace := h.auxTrace ++ legUpdates ctx h.traceLen index depth ss,
          lookups := h.lookups
            ++ [⟨RETURN_HASH_LABEL, st, h.traceLen + 8 * ss.length, index >>> ss.length,
                .ret⟩] }) := by
  intro ss
  induction ss with
  | nil => intro hne; exact absurd rfl hne
  | cons s rest ih =>
    intro _ h root index depth
    cases rest with
    | nil =>
      obtain ⟨root1, st, hleg⟩ := verifyMpLeg_part_return perm ctx
        { h with auxTrace := h.auxTrace ++ legHint ctx h.traceLen index s depth } root s index
      refine ⟨root1, st, ?_⟩
      simp only [Hasher.mpTail, updateSiblingHints_eq]
      rw [hleg]
      simp [legUpdates, Nat.shiftRight_one]
    | cons s2 rest2 =>
      obtain ⟨root1, hleg⟩ := verifyMpLeg_part_main perm ctx
        { h with auxTrace := h.auxTrace ++ legHint ctx h.traceLen index s depth } root s index
      obtain ⟨root2, st, htail⟩ := ih (by simp)
        { h with traceLen := h.traceLen + 8,
                 auxTrace := h.auxTrace ++ legHint ctx h.traceLen index s depth }
        root1 (index / 2) (depth - 1)
      refine ⟨root2, st, ?_⟩
      simp only [Hasher.mpTail, updateSiblingHints_eq]
      rw [hleg]
      dsimp only
      dsimp only at htail
      rw [htail]
      have hlen : h.traceLen + 8 + 8 * (s2 :: rest2).length
          = h.traceLen + 8 * (s :: s2 :: rest2).length := by
        simp only [List.length_cons]
        ring
      have hshift : (index / 2) >>> (s2 :: rest2).length
          = index >>> (s :: s2 :: rest2).length := by
        simp only [List.length_cons]
        rw [show index / 2 = index >>> 1 from (Nat.shiftRight_one index).symm,
          ← Nat.shiftRight_add]
        congr 1
        omega
      rw [hlen, hshift]
      simp [legUpdates, List.append_assoc]

/-- Characterization of `verify_merkle_path` on a non-empty path with an
in-range index: the trace grows by `8 · path.len()` rows, the sibling updates
follow `legUpdates` with depth starting at `path.len() - 1`, and exactly two
lookups are appended — the start lookup at the initial next-row address with
the unshifted index, and the return lookup at the final row address with the
fully shifted index. -/
lemma verifyMerklePath_spec {F : Type} [Field F] (perm : HasherState F → HasherState F)
    (ctx : MerklePathContext) (h : Hasher F) (value : Word F)
    (path : List (Word F)) (index : Nat) (hne : path ≠ []) (hidx : index < 2 ^ path.length) :
    ∃ root1 st1 st2,
      h.verifyMerklePath perm value path index ctx = some (root1,
        { traceLen := h.traceLen + 8 * path.length,
          auxTrace := h.auxTrace ++ legUpdates ctx h.traceLen index (path.length - 1) path,
          lookups := h.lookups
            ++ [⟨ctx.startLabel, st1, h.traceLen + 1, index, .start⟩,
                ⟨RETURN_HASH_LABEL, st2, h.traceLen + 8 * path.length, index >>> path.length,
                  .ret⟩] }) := by
  have hsh : index >>> path.length = 0 := by
    rw [Nat.shiftRight_eq_div_pow]
    exact Nat.div_eq_of_lt hidx
  have hcond : ¬(index >>> path.length ≠ 0) := fun hk => hk hsh
  cases path with
  | nil => exact absurd rfl hne
  | cons s rest =>
    cases rest with
    | nil =>
      obtain ⟨root1, st1, st2, hleg⟩ := verifyMpLeg_main_return perm ctx
        { h with auxTrace := h.auxTrace ++ legHint ctx h.traceLen index s 0 } value s index
      refine ⟨root1, st1, st2, ?_⟩
      unfold Hasher.verifyMerklePath
      rw [if_neg hcond]
      simp only [updateSiblingHints_eq]
      rw [hleg]
      simp [legUpdates, Nat.shiftRight_one]
    | cons s2 rest2 =>
      obtain ⟨root1, st1, hleg⟩ := verifyMpLeg_main_main perm ctx
        { h with auxTrace :=
            h.auxTrace ++ legHint ctx h.traceLen index s ((s :: s2 :: rest2).length - 1) }
        value s index
      obtain ⟨root2, st2, htail⟩ := mpTail_spec perm ctx (s2 :: rest2) (by simp)
        { h with traceLen := h.traceLen + 8,
                 auxTrace :=
                   h.auxTrace ++ legHint ctx h.traceLen index s ((s :: s2 :: rest2).length - 1),
                 lookups := h.lookups ++ [⟨ctx.startLabel, st1, h.traceLen + 1, index, .start⟩] }
        root1 (index / 2) ((s :: s2 :: rest2).length - 1 - 1)
      refine ⟨root2, st1, st2, ?_⟩
      unfold Hasher.verifyMerklePath
      rw [if_neg hcond]
      simp only [updateSiblingHints_eq]
      rw [hleg]
      dsimp only
      dsimp only at htail
      rw [htail]
      have hlen : h.traceLen + 8 + 8 * (s2 :: rest2).length
          = h.traceLen + 8 * (s :: s2 :: rest2).length := by
        simp only [List.length_cons]
        ring
      have hshift : (index / 2) >>> (s2 :: rest2).length
          = index >>> (s :: s2 :: rest2).length := by
        simp only [List.length_cons]
        rw [show index / 2 = index >>> 1 from (Nat.shiftRight_one index).symm,
          ← Nat.shiftRight_add]
        congr 1
        omega
      rw [hlen, hshift]
      have hdep : (s :: s2 :: rest2).length - 1 - 1 = (s2 :: rest2).length - 1 := by
        simp
      rw [hdep]
      simp [legUpdates, List.append_assoc]

-- ================================================================================================
-- HELPER LEMMAS: sibling-table cancellation
-- ================================================================================================

lemma eraseIdx_append_cons {α : Type} (T : List α) (r : α) (R : List α) :
    (T ++ r :: R).eraseIdx T.length = T ++ R := by
  induction T with
  | nil => rfl
  | cons a T ih => simp [List.eraseIdx, ih]

lemma addedRows_length {F : Type} :
    ∀ (ss : List (Word F)) (index : Nat), (addedRows (F := F) index ss).length = ss.length := by
  intro ss
  induction ss with
  | nil => intro index; rfl
  | cons s rest ih => intro index; simp [addedRows, ih]

/-- The `MrUpdateOld` updates append exactly one row per leg, holding the leg's
index and sibling. -/
lemma applySiblingUpdates_old {F : Type} :
    ∀ (ss : List (Word F)) (T : List (SiblingTableRow F)) (t index depth : Nat),
      applySiblingUpdates T (legUpdates .mrUpdateOld t index depth ss)
        = T ++ addedRows index ss := by
  intro ss
  induction ss with
  | nil => intro T t index depth; simp [legUpdates, applySiblingUpdates, addedRows]
  | cons s rest ih =>
    intro T t index depth
    simp only [legUpdates, legHint, List.cons_append, List.nil_append, applySiblingUpdates,
      List.foldl_cons]
    have hstep : applySiblingUpdate T (SiblingTableUpdate.siblingAdded t index s)
        = T ++ [⟨index, s⟩] := rfl
    rw [hstep]
    have := ih (T ++ [⟨index, s⟩]) (t + 8) (index / 2) (depth - 1)
    simp only [applySiblingUpdates] at this
    rw [this]
    simp [addedRows]

/-- The `MrUpdateNew` updates remove, one per leg and deepest first, exactly the
rows sitting after the untouched prefix `T`. -/
lemma applySiblingUpdates_new {F : Type} :
    ∀ (ss : List (Word F)) (R T : List (SiblingTableRow F)) (t index : Nat),
      R.length = ss.length →
      applySiblingUpdates (T ++ R) (legUpdates .mrUpdateNew t index (ss.length - 1) ss) = T := by
  intro ss
  induction ss with
  | nil =>
    intro R T t index hR
    have : R = [] := List.length_eq_zero.mp hR
    simp [this, legUpdates, applySiblingUpdates]
  | cons s rest ih =>
    intro R T t index hR
    cases R with
    | nil => simp at hR
    | cons r R' =>
      have hR' : R'.length = rest.length := by simpa using hR
      simp only [legUpdates, legHint, List.cons_append, List.nil_append, applySiblingUpdates,
        List.foldl_cons, List.length_cons, Nat.add_sub_cancel]
      have hstep : applySiblingUpdate (T ++ r :: R')
          (SiblingTableUpdate.siblingRemoved t rest.length)
          = (T ++ r :: R').eraseIdx ((T ++ r :: R').length - 1 - rest.length) := rfl
      rw [hstep, show (T ++ r :: R').length - 1 - rest.length = T.length from by
        simp only [List.length_append, List.length_cons, hR']; omega, eraseIdx_append_cons]
      have := ih R' T (t + 8) (index / 2) hR'
      simp only [applySiblingUpdates] at this
      exact this

/-- Inserting one sibling row per leg during the old-root half and removing the
`depth`-th entry from the end per leg during the new-root half returns any
starting table to itself. -/
lemma sibling_updates_cancel {F : Type} (path : List (Word F))
    (T : List (SiblingTableRow F)) (t t' index : Nat) :
    applySiblingUpdates T
        (legUpdates .mrUpdateOld t index (path.length - 1) path
          ++ legUpdates .mrUpdateNew t' index (path.length - 1) path)
      = T := by
  have hsplit : applySiblingUpdates T
      (legUpdates .mrUpdateOld t index (path.length - 1) path
        ++ legUpdates .mrUpdateNew t' index (path.length - 1) path)
      = applySiblingUpdates
          (applySiblingUpdates T (legUpdates .mrUpdateOld t index (path.length - 1) path))
          (legUpdates .mrUpdateNew t' index (path.length - 1) path) := by
    simp [applySiblingUpdates, List.foldl_append]
  rw [hsplit, applySiblingUpdates_old]
  exact applySiblingUpdates_new path (addedRows index path) T t' index (addedRows_length path index)

/-- C2: during `update_merkle_root` over a path of length `d`, each old-root leg
records an insertion of the leg's `(index, sibling)` pair and each new-root leg
records a removal of the `depth`-th entry from the end, with `depth` starting at
`d - 1` and decrementing per leg (the recorded updates are exactly
`legUpdates`); applying the combined updates to any sibling table returns it to
its initial state, so the running product over the table returns to its initial
value once both verifications complete. -/
theorem update_merkle_root_sibling_balance {F : Type} [Field F]
    (perm : HasherState F → HasherState F) (h : Hasher F) (oldValue newValue : Word F)
    (path : List (Word F)) (index : Nat) (hne : path ≠ []) (hidx : index < 2 ^ path.length) :
    ∀ r, h.updateMerkleRoot perm oldValue newValue path index = some r →
      r.2.2.2.2.auxTrace
          = h.auxTrace
            ++ (legUpdates .mrUpdateOld h.traceLen index (path.length - 1) path
              ++ legUpdates .mrUpdateNew (h.traceLen + 8 * path.length) index
                  (path.length - 1) path)
      ∧ ∀ table : List (SiblingTableRow F),
          applySiblingUpdates table
            (legUpdates .mrUpdateOld h.traceLen index (path.length - 1) path
              ++ legUpdates .mrUpdateNew (h.traceLen + 8 * path.length) index
                  (path.length - 1) path)
            = table := by
  intro r hr
  obtain ⟨r1, s1, s2, hv1⟩ := verifyMerklePath_spec perm .mrUpdateOld h oldValue path index
    hne hidx
  obtain ⟨r2, s3, s4, hv2⟩ := verifyMerklePath_spec perm .mrUpdateNew
    { traceLen := h.traceLen + 8 * path.length,
      auxTrace := h.auxTrace ++ legUpdates .mrUpdateOld h.traceLen index (path.length - 1) path,
      lookups := h.lookups
        ++ [⟨MerklePathContext.startLabel .mrUpdateOld, s1, h.traceLen + 1, index, .start⟩,
            ⟨RETURN_HASH_LABEL, s2, h.traceLen + 8 * path.length, index >>> path.length,
              .ret⟩] }
    newValue path index hne hidx
  unfold Hasher.updateMerkleRoot at hr
  rw [hv1] at hr
  dsimp only at hr
  rw [hv2] at hr
  dsimp only at hr
  cases hr
  constructor
  · simp [List.append_assoc]
  · intro table
    exact sibling_updates_cancel path table h.traceLen (h.traceLen + 8 * path.length) index

-- ================================================================================================
-- HELPER LEMMAS: success conditions
-- ================================================================================================

/-- If `verify_merkle_path` completes, its two assertions held: the path was
non-empty and the index in range. -/
lemma verifyMerklePath_some_conds {F : Type} [Field F] {perm : HasherState F → HasherState F}
    {h : Hasher F} {value : Word F} {path : List (Word F)} {index : Nat}
    {ctx : MerklePathContext} {res : Word F × Hasher F}
    (hres : h.verifyMerklePath perm value path index ctx = some res) :
    path ≠ [] ∧ index < 2 ^ path.length := by
  unfold Hasher.verifyMerklePath at hres
  by_cases hsh : index >>> path.length ≠ 0
  · rw [if_pos hsh] at hres
    cases hres
  · rw [if_neg hsh] at hres
    push_neg at hsh
    have hlt : index < 2 ^ path.length := by
      rw [Nat.shiftRight_eq_div_pow] at hsh
      have := (Nat.div_eq_zero_iff (Nat.pos_pow_of_pos path.length (by norm_num))).mp hsh
      exact this
    refine ⟨?_, hlt⟩
    intro hnil
    rw [hnil] at hres
    cases hres

/-- C4: each hashing operation extends the hasher trace by a fixed amount — 8
rows per permutation (so 8 for `permute` and for `merge`), `8 · path.len()` for
`build_merkle_root` and `16 · path.len()` for `update_merkle_root`, for every
non-empty path with an in-range index. -/
theorem trace_len_increments {F : Type} [Field F] (perm : HasherState F → HasherState F)
    (h : Hasher F) (state : HasherState F) (w1 w2 value oldValue newValue : Word F)
    (path : List (Word F)) (index : Nat)
    (hne : path ≠ []) (hidx : index < 2 ^ path.length) :
    (h.permute perm state).2.2.2.traceLen = h.traceLen + 8
    ∧ (h.merge perm w1 w2).2.2.2.traceLen = h.traceLen + 8
    ∧ (h.buildMerkleRoot perm value path index).map (fun r => r.2.2.2.traceLen)
        = some (h.traceLen + 8 * path.length)
    ∧ (h.updateMerkleRoot perm oldValue newValue path index).map (fun r => r.2.2.2.2.traceLen)
        = some (h.traceLen + 16 * path.length) := by
  refine ⟨rfl, rfl, ?_, ?_⟩
  · obtain ⟨r1, s1, s2, hv⟩ := verifyMerklePath_spec perm .mpVerify h value path index hne hidx
    unfold Hasher.buildMerkleRoot
    rw [hv]
    rfl
  · obtain ⟨r1, s1, s2, hv1⟩ := verifyMerklePath_spec perm .mrUpdateOld h oldValue path index
      hne hidx
    obtain ⟨r2, s3, s4, hv2⟩ := verifyMerklePath_spec perm .mrUpdateNew
      { traceLen := h.traceLen + 8 * path.length,
        auxTrace := h.auxTrace
          ++ legUpdates .mrUpdateOld h.traceLen index (path.length - 1) path,
        lookups := h.lookups
          ++ [⟨MerklePathContext.startLabel .mrUpdateOld, s1, h.traceLen + 1, index, .start⟩,
              ⟨RETURN_HASH_LABEL, s2, h.traceLen + 8 * path.length, index >>> path.length,
                .ret⟩] }
      newValue path index hne hidx
    unfold Hasher.updateMerkleRoot
    rw [hv1]
    dsimp only
    rw [hv2]
    dsimp only [Option.map_some']
    congr 1
    omega

/-- C6: `build_merkle_root` and `update_merkle_root` complete exactly when the
path is non-empty and `index < 2 ^ path.len()`; otherwise the assertions of
`verify_merkle_path` abort the computation. -/
theorem merkle_root_abort_iff {F : Type} [Field F] (perm : HasherState F → HasherState F)
    (h : Hasher F) (value oldValue newValue : Word F) (path : List (Word F)) (index : Nat) :
    ((h.buildMerkleRoot perm value path index).isSome = true
      ↔ path ≠ [] ∧ index < 2 ^ path.length)
    ∧ ((h.updateMerkleRoot perm oldValue newValue path index).isSome = true
      ↔ path ≠ [] ∧ index < 2 ^ path.length) := by
  constructor
  · constructor
    · intro hs
      unfold Hasher.buildMerkleRoot at hs
      cases hv : h.verifyMerklePath perm value path index .mpVerify with
      | none => rw [hv] at hs; cases hs
      | some res => exact verifyMerklePath_some_conds hv
    · rintro ⟨hne, hidx⟩
      obtain ⟨r1, s1, s2, hv⟩ := verifyMerklePath_spec perm .mpVerify h value path index
        hne hidx
      unfold Hasher.buildMerkleRoot
      rw [hv]
      rfl
  · constructor
    · intro hs
      unfold Hasher.updateMerkleRoot at hs
      cases hv : h.verifyMerklePath perm oldValue path index .mrUpdateOld with
      | none => rw [hv] at hs; cases hs
      | some res => exact verifyMerklePath_some_conds hv
    · rintro ⟨hne, hidx⟩
      obtain ⟨r1, s1, s2, hv1⟩ := verifyMerklePath_spec perm .mrUpdateOld h oldValue path index
        hne hidx
      obtain ⟨r2, s3, s4, hv2⟩ := verifyMerklePath_spec perm .mrUpdateNew
        { traceLen := h.traceLen + 8 * path.length,
          auxTrace := h.auxTrace
            ++ legUpdates .mrUpdateOld h.traceLen index (path.length - 1) path,
          lookups := h.lookups
            ++ [⟨MerklePathContext.startLabel .mrUpdateOld, s1, h.traceLen + 1, index, .start⟩,
                ⟨RETURN_HASH_LABEL, s2, h.traceLen + 8 * path.length, index >>> path.length,
                  .ret⟩] }
        newValue path index hne hidx
      unfold Hasher.updateMerkleRoot
      rw [hv1]
      dsimp only
      rw [hv2]
      rfl

/-- C10: `verify_mp_leg` always computes the index bit as `index % 2`, which is
0 or 1, so `build_merge_state` always succeeds on it and the panic branch for a
non-binary bit is unreachable: `verify_mp_leg` itself never aborts, whatever
the selectors. -/
theorem merge_state_index_bit_unreachable {F : Type} [Field F]
    (perm : HasherState F → HasherState F) (h : Hasher F) (root sibling : Word F)
    (index : Nat) (initSelectors finalSelectors : Selectors) :
    (buildMergeState (F := F) root sibling (index % 2)).isSome = true
    ∧ (h.verifyMpLeg perm root sibling index initSelectors finalSelectors).isSome = true := by
  rcases Nat.mod_two_eq_zero_or_one index with h2 | h2 <;>
    exact ⟨by simp [buildMergeState, h2],
      by simp [Hasher.verifyMpLeg, buildMergeState, h2]⟩

/-- The span-block absorption loop preserves the address discipline: it appends
only absorb lookups, each at the end-of-cycle address `trace_len`. -/
lemma spanRest_wellAddressed {F : Type} [Field F] (perm : HasherState F → HasherState F) :
    ∀ (batches : List (OpBatch F)) (h : Hasher F) (state : HasherState F),
      h.traceLen % 8 = 0 → h.traceLen ≠ 0 → (∀ l ∈ h.lookups, addrOk l = true) →
      ∀ r, Hasher.spanRest perm h state batches = some r →
        r.2.traceLen % 8 = 0 ∧ r.2.traceLen ≠ 0 ∧ ∀ l ∈ r.2.lookups, addrOk l = true := by
  intro batches
  induction batches with
  | nil =>
    intro h state _ _ _ r hr
    cases hr
  | cons b rest ih =>
    intro h state hmod hnz hall r hr
    cases rest with
    | nil =>
      simp only [Hasher.spanRest, Hasher.appendLookup, Hasher.appendPermutation,
        Hasher.trace_len] at hr
      cases hr
      dsimp only
      refine ⟨by omega, by omega, ?_⟩
      intro l hl
      rcases List.mem_append.mp hl with hmem | hmem
      · exact hall l hmem
      · have hle : l = ⟨LINEAR_HASH_LABEL, state, h.traceLen, 0,
            .absorb (absorbIntoState state b)⟩ := by simpa using hmem
        subst hle
        simp [addrOk, hmod, hnz]
    | cons b2 rest2 =>
      simp only [Hasher.spanRest, Hasher.appendLookup, Hasher.appendPermutation,
        Hasher.trace_len] at hr
      refine ih _ _ (by dsimp only; omega) (by dsimp only; omega) ?_ r hr
      intro l hl
      rcases List.mem_append.mp hl with hmem | hmem
      · exact hall l hmem
      · have hle : l = ⟨LINEAR_HASH_LABEL, state, h.traceLen, 0,
            .absorb (absorbIntoState state b)⟩ := by simpa using hmem
        subst hle
        simp [addrOk, hmod, hnz]

/-- C5: every lookup recorded by the hash chiplet, across `permute`, `merge`,
`hash_span_block`, `build_merkle_root` and `update_merkle_root`, keeps the
1-indexed address discipline: `addr ≡ 1 (mod 8)` for `Start` lookups and
`addr ≡ 0 (mod 8)` (with `addr ≥ 1`) for `Return` and `Absorb` lookups —
starting from any hasher state that satisfies the discipline, each operation
preserves it. -/
theorem lookup_address_discipline {F : Type} [Field F] (perm : HasherState F → HasherState F)
    (h : Hasher F) (state : HasherState F) (w1 w2 value oldValue newValue : Word F)
    (batches : List (OpBatch F)) (numOpGroups : Nat) (path : List (Word F)) (index : Nat)
    (hw : h.WellAddressed) :
    (h.permute perm state).2.2.2.WellAddressed
    ∧ (h.merge perm w1 w2).2.2.2.WellAddressed
    ∧ (∀ r, h.hashSpanBlock perm batches numOpGroups = some r → r.2.2.2.WellAddressed)
    ∧ (∀ r, h.buildMerkleRoot perm value path index = some r → r.2.2.2.WellAddressed)
    ∧ (∀ r, h.updateMerkleRoot perm oldValue newValue path index = some r →
        r.2.2.2.2.WellAddressed) := by
  obtain ⟨hmod, hall⟩ := hw
  have hstart : ∀ (lab : Nat) (st : HasherState F) (ix : Nat),
      addrOk (F := F) ⟨lab, st, h.traceLen + 1, ix, .start⟩ = true := by
    intro lab st ix
    simp [addrOk]
    omega
  have hret8 : ∀ (lab : Nat) (st : HasherState F) (ix : Nat) (d : Nat), d ≠ 0 →
      addrOk (F := F) ⟨lab, st, h.traceLen + 8 * d, ix, .ret⟩ = true := by
    intro lab st ix d hd
    simp [addrOk]
    constructor
    · omega
    · omega
  refine ⟨?_, ?_, ?_, ?_, ?_⟩
  · refine ⟨by simpa [Hasher.permute, Hasher.appendPermutation, Hasher.appendLookup] using
      (by omega : (h.traceLen + 8) % 8 = 0), ?_⟩
    intro l hl
    simp only [Hasher.permute, Hasher.appendLookup, Hasher.appendPermutation, Hasher.trace_len,
      Hasher.nextRowAddr, List.append_assoc, List.mem_append] at hl
    rcases hl with hmem | hmem
    · exact hall l hmem
    · rcases hmem with hm | hm
      · have hle : l = ⟨LINEAR_HASH_LABEL, state, h.traceLen + 1, 0, .start⟩ := by
          simpa using hm
        subst hle
        exact hstart _ _ _
      · have hle : l = ⟨RETURN_STATE_LABEL, perm state, h.traceLen + 8, 0, .ret⟩ := by
          simpa using hm
        subst hle
        have := hret8 RETURN_STATE_LABEL (perm state) 0 1 (by omega)
        simpa using this
  · refine ⟨by simpa [Hasher.merge, Hasher.appendPermutation, Hasher.appendLookup] using
      (by omega : (h.traceLen + 8) % 8 = 0), ?_⟩
    intro l hl
    simp only [Hasher.merge, Hasher.appendLookup, Hasher.appendPermutation, Hasher.trace_len,
      Hasher.nextRowAddr, List.append_assoc, List.mem_append] at hl
    rcases hl with hmem | hmem
    · exact hall l hmem
    · rcases hmem with hm | hm
      · have hle : l = ⟨LINEAR_HASH_LABEL, initStateFromWords w1 w2, h.traceLen + 1, 0,
            .start⟩ := by simpa using hm
        subst hle
        exact hstart _ _ _
      · have hle : l = ⟨RETURN_HASH_LABEL, perm (initStateFromWords w1 w2), h.traceLen + 8, 0,
            .ret⟩ := by simpa using hm
        subst hle
        have := hret8 RETURN_HASH_LABEL (perm (initStateFromWords w1 w2)) 0 1 (by omega)
        simpa using this
  · intro r hr
    cases batches with
    | nil => cases hr
    | cons b0 rest =>
      cases rest with
      | nil =>
        simp only [Hasher.hashSpanBlock, Hasher.appendLookup, Hasher.appendPermutation,
          Hasher.trace_len, Hasher.nextRowAddr] at hr
        cases hr
        dsimp only
        refine ⟨by dsimp only; omega, ?_⟩
        intro l hl
        simp only [List.append_assoc, List.mem_append] at hl
        rcases hl with hmem | hmem
        · exact hall l hmem
        · rcases hmem with hm | hm
          · have hle : l = ⟨LINEAR_HASH_LABEL, initState b0 numOpGroups, h.traceLen + 1, 0,
                .start⟩ := by simpa using hm
            subst hle
            exact hstart _ _ _
          · have hle : l = ⟨RETURN_HASH_LABEL, perm (initState b0 numOpGroups),
                h.traceLen + 8, 0, .ret⟩ := by simpa using hm
            subst hle
            have := hret8 RETURN_HASH_LABEL (perm (initState b0 numOpGroups)) 0 1 (by omega)
            simpa using this
      | cons b1 rest1 =>
        simp only [Hasher.hashSpanBlock, Hasher.appendLookup, Hasher.appendPermutation,
          Hasher.trace_len, Hasher.nextRowAddr] at hr
        cases hsp : Hasher.spanRest perm
            { traceLen := h.traceLen + 8, auxTrace := h.auxTrace,
              lookups := h.lookups
                ++ [⟨LINEAR_HASH_LABEL, initState b0 numOpGroups, h.traceLen + 1, 0, .start⟩] }
            (perm (initState b0 numOpGroups)) (b1 :: rest1) with
        | none => rw [hsp] at hr; cases hr
        | some r2 =>
          rw [hsp] at hr
          dsimp only at hr
          obtain ⟨hmod2, hnz2, hall2⟩ := spanRest_wellAddressed perm (b1 :: rest1) _ _
            (by dsimp only; omega)
            (by dsimp only; omega)
            (by
              intro l hl
              rcases List.mem_append.mp hl with hmem | hmem
              · exact hall l hmem
              · have hle : l = ⟨LINEAR_HASH_LABEL, initState b0 numOpGroups, h.traceLen + 1, 0,
                    .start⟩ := by simpa using hmem
                subst hle
                exact hstart _ _ _)
            r2 hsp
          cases hr
          refine ⟨by simpa [Hasher.appendLookup, Hasher.trace_len] using hmod2, ?_⟩
          intro l hl
          simp only [Hasher.appendLookup, Hasher.trace_len, List.mem_append] at hl
          rcases hl with hmem | hmem
          · exact hall2 l hmem
          · have hle : l = ⟨RETURN_HASH_LABEL, r2.1, r2.2.traceLen, 0, .ret⟩ := by
              simpa using hmem
            subst hle
            simp [addrOk, hmod2, hnz2]
  · intro r hr
    unfold Hasher.buildMerkleRoot at hr
    cases hv : h.verifyMerklePath perm value path index .mpVerify with
    | none => rw [hv] at hr; cases hr
    | some res =>
      obtain ⟨hne, hidx⟩ := verifyMerklePath_some_conds hv
      obtain ⟨r1, s1, s2, hv2⟩ := verifyMerklePath_spec perm .mpVerify h value path index
        hne hidx
      rw [hv2] at hv hr
      cases hv
      cases hr
      refine ⟨by
        simp only []
        omega, ?_⟩
      intro l hl
      simp only [List.mem_append] at hl
      rcases hl with hmem | hmem
      · exact hall l hmem
      · rcases List.mem_cons.mp hmem with hm | hm
        · subst hm
          exact hstart _ _ _
        · have hle : l = ⟨RETURN_HASH_LABEL, s2, h.traceLen + 8 * path.length,
              index >>> path.length, .ret⟩ := by simpa using hm
          subst hle
          exact hret8 RETURN_HASH_LABEL s2 (index >>> path.length) path.length
            (by simpa [List.length_eq_zero] using hne)
  · intro r hr
    unfold Hasher.updateMerkleRoot at hr
    cases hv : h.verifyMerklePath perm oldValue path index .mrUpdateOld with
    | none => rw [hv] at hr; cases hr
    | some res =>
      obtain ⟨hne, hidx⟩ := verifyMerklePath_some_conds hv
      obtain ⟨r1, s1, s2, hv1⟩ := verifyMerklePath_spec perm .mrUpdateOld h oldValue path index
        hne hidx
      obtain ⟨r2, s3, s4, hv2⟩ := verifyMerklePath_spec perm .mrUpdateNew
        { traceLen := h.traceLen + 8 * path.length,
          auxTrace := h.auxTrace
            ++ legUpdates .mrUpdateOld h.traceLen index (path.length - 1) path,
          lookups := h.lookups
            ++ [⟨MerklePathContext.startLabel .mrUpdateOld, s1, h.traceLen + 1, index, .start⟩,
                ⟨RETURN_HASH_LABEL, s2, h.traceLen + 8 * path.length, index >>> path.length,
                  .ret⟩] }
        newValue path index hne hidx
      rw [hv1] at hr
      dsimp only at hr
      rw [hv2] at hr
      dsimp only at hr
      cases hr
      have hd : path.length ≠ 0 := by simpa [List.length_eq_zero] using hne
      refine ⟨by
        simp only []
        omega, ?_⟩
      intro l hl
      simp only [List.append_assoc, List.mem_append] at hl
      rcases hl with hmem | hmem
      · exact hall l hmem
      · rcases hmem with hm | hm
        · rcases List.mem_cons.mp hm with hm1 | hm1
          · subst hm1
            exact hstart _ _ _
          · have hle : l = ⟨RETURN_HASH_LABEL, s2, h.traceLen + 8 * path.length,
                index >>> path.length, .ret⟩ := by simpa using hm1
            subst hle
            exact hret8 RETURN_HASH_LABEL s2 (index >>> path.length) path.length hd
        · rcases List.mem_cons.mp hm with hm1 | hm1
          · subst hm1
            have : addrOk (F := F) ⟨MerklePathContext.startLabel .mrUpdateNew, s3,
                h.traceLen + 8 * path.length + 1, index, .start⟩ = true := by
              simp [addrOk]
              omega
            exact this
          · have hle : l = ⟨RETURN_HASH_LABEL, s4,
                h.traceLen + 8 * path.length + 8 * path.length, index >>> path.length,
                .ret⟩ := by simpa using hm1
            subst hle
            have h1 : (h.traceLen + 8 * path.length + 8 * path.length) % 8 = 0 := by omega
            have h2 : h.traceLen + 8 * path.length + 8 * path.length ≠ 0 := by omega
            simp [addrOk, h1, h2]

-- ================================================================================================
-- HELPER LEMMAS: providing lookups to the bus
-- ================================================================================================

lemma hintFind_hintProvide_ne (m : List (Nat × ChipletsLookup)) (k k' j : Nat) (hk : k ≠ k') :
    hintFind (hintProvide m k' j) k = hintFind m k := by
  have hk' : ¬ k' = k := fun hh => hk hh.symm
  induction m with
  | nil =>
    simp only [hintProvide]
    rw [hintFind_cons, if_neg hk']
  | cons e rest ih =>
    by_cases he : e.1 = k'
    · have hne : ¬ e.1 = k := fun hh => hk (hh.symm.trans he)
      rcases e with ⟨ek, ev⟩
      simp only at he hne
      cases ev <;>
        simp [hintProvide, he, hintFind_cons, hne, hk']
    · rw [show hintProvide (e :: rest) k' j = e :: hintProvide rest k' j from by
        simp [hintProvide, he]]
      rw [hintFind_cons, hintFind_cons]
      by_cases hek : e.1 = k
      · simp [hek]
      · simp [hek, ih]

lemma hintFind_hintProvide_self (m : List (Nat × ChipletsLookup)) (k j : Nat)
    (hnone : hintFind m k = none) :
    hintFind (hintProvide m k j) k = some (.response j) := by
  induction m with
  | nil =>
    simp only [hintProvide]
    rw [hintFind_cons, if_pos rfl]
  | cons e rest ih =>
    have hek : ¬ e.1 = k := by
      intro hh
      rw [hintFind_cons, if_pos hh] at hnone
      cases hnone
    rw [hintFind_cons, if_neg hek] at hnone
    rw [show hintProvide (e :: rest) k j = e :: hintProvide rest k j from by
      simp [hintProvide, hek]]
    rw [hintFind_cons, if_neg hek]
    exact ih hnone

lemma provideFold_responseRows {F : Type} [Field F] :
    ∀ (ls : List (HasherLookup F)) (bus : ChipletsBus F),
      (ls.foldl (fun b l => b.provideHasherLookup l l.cycle) bus).responseRows
        = bus.responseRows ++ ls.map ChipletsLookupRow.hasher := by
  intro ls
  induction ls with
  | nil => intro bus; simp
  | cons l rest ih =>
    intro bus
    rw [List.foldl_cons, ih]
    simp [ChipletsBus.provideHasherLookup, ChipletsBus.provideLookup]

lemma provideFold_hintFind_of_notmem {F : Type} [Field F] :
    ∀ (ls : List (HasherLookup F)) (bus : ChipletsBus F) (k : Nat),
      (∀ l ∈ ls, l.cycle ≠ k) →
      hintFind ((ls.foldl (fun b l => b.provideHasherLookup l l.cycle) bus).lookupHints) k
        = hintFind bus.lookupHints k := by
  intro ls
  induction ls with
  | nil => intro bus k _; rfl
  | cons l rest ih =>
    intro bus k hne
    rw [List.foldl_cons, ih _ _ (fun l' hl' => hne l' (List.mem_cons_of_mem _ hl'))]
    show hintFind (hintProvide bus.lookupHints l.cycle bus.responseRows.length) k
      = hintFind bus.lookupHints k
    exact hintFind_hintProvide_ne _ _ _ _ (Ne.symm (hne l (by simp)))

/-- Each lookup in the provided list ends up with a `response` hint at its own
cycle, numbered in provide order. -/
lemma provideFold_hints {F : Type} [Field F] :
    ∀ (ls : List (HasherLookup F)) (bus : ChipletsBus F),
      (ls.map HasherLookup.cycle).Nodup →
      (∀ l ∈ ls, hintFind bus.lookupHints l.cycle = none) →
      ∀ k (hk : k < ls.length),
        hintFind ((ls.foldl (fun b l => b.provideHasherLookup l l.cycle) bus).lookupHints)
            ((ls.get ⟨k, hk⟩).cycle)
          = some (.response (bus.responseRows.length + k)) := by
  intro ls
  induction ls with
  | nil =>
    intro bus _ _ k hk
    exact absurd hk (by simp)
  | cons l rest ih =>
    intro bus hnodup hfresh k hk
    simp only [List.map_cons, List.nodup_cons] at hnodup
    cases k with
    | zero =>
      have hne : ∀ l' ∈ rest, l'.cycle ≠ l.cycle := by
        intro l' hl' heq
        exact hnodup.1 (heq ▸ List.mem_map_of_mem _ hl')
      rw [List.foldl_cons]
      have hrw := provideFold_hintFind_of_notmem rest (bus.provideHasherLookup l l.cycle)
        l.cycle hne
      simp only [List.get] at hrw ⊢
      rw [hrw]
      show hintFind (hintProvide bus.lookupHints l.cycle bus.responseRows.length) l.cycle = _
      rw [hintFind_hintProvide_self _ _ _ (hfresh l (by simp))]
      simp
    | succ k' =>
      have hk' : k' < rest.length := by simpa using hk
      rw [List.foldl_cons]
      have hfresh' : ∀ l' ∈ rest, hintFind (bus.provideHasherLookup l l.cycle).lookupHints
          l'.cycle = none := by
        intro l' hl'
        have hne : l'.cycle ≠ l.cycle := by
          intro heq
          exact hnodup.1 (heq ▸ List.mem_map_of_mem _ hl')
        show hintFind (hintProvide bus.lookupHints l.cycle bus.responseRows.length) l'.cycle
          = none
        rw [hintFind_hintProvide_ne _ _ _ _ hne]
        exact hfresh l' (List.mem_cons_of_mem _ hl')
      have := ih (bus.provideHasherLookup l l.cycle) hnodup.2 hfresh' k' hk'
      have hlen : (bus.provideHasherLookup l l.cycle).responseRows.length
          = bus.responseRows.length + 1 := by
        simp [ChipletsBus.provideHasherLookup, ChipletsBus.provideLookup]
      rw [hlen] at this
      simp only [List.get] at this ⊢
      rw [this]
      congr 2
      omega

/-- C7 counterexample: the claim that `fill_trace` provides each lookup at a
cycle equal to its `addr` is false at a concrete input — after one `permute`,
the two stored lookups have addresses 1 and 8, yet the bus receives no response
hint at cycles 1 or 8; the hints land at cycles 0 and 7. -/
theorem fill_trace_cycle_not_addr :
    (c7hasher.lookups.map (fun l => l.addr) = [1, 8])
    ∧ hintFind (c7hasher.fillTrace ({} : ChipletsBus F5)).1.lookupHints 1 = none
    ∧ hintFind (c7hasher.fillTrace ({} : ChipletsBus F5)).1.lookupHints 8 = none
    ∧ hintFind (c7hasher.fillTrace ({} : ChipletsBus F5)).1.lookupHints 0
        = some (.response 0)
    ∧ hintFind (c7hasher.fillTrace ({} : ChipletsBus F5)).1.lookupHints 7
        = some (.response 1) := by
  decide

/-- C7 (amended): `fill_trace` provides each stored lookup to the bus in
recorded order at cycle `addr - 1` — the 0-based trace row containing the
lookup row — appending one response row per lookup and recording a response
hint at that cycle (stated for fresh, pairwise distinct cycles), and returns
the sibling-table auxiliary builder unchanged. -/
theorem fill_trace_provides_at_row {F : Type} [Field F] (h : Hasher F) (bus : ChipletsBus F)
    (hnodup : (h.lookups.map HasherLookup.cycle).Nodup)
    (hfresh : ∀ l ∈ h.lookups, hintFind bus.lookupHints l.cycle = none) :
    (h.fillTrace bus).1.responseRows
        = bus.responseRows ++ h.lookups.map ChipletsLookupRow.hasher
    ∧ (∀ k (hk : k < h.lookups.length),
        hintFind (h.fillTrace bus).1.lookupHints ((h.lookups.get ⟨k, hk⟩).addr - 1)
          = some (.response (bus.responseRows.length + k)))
    ∧ (h.fillTrace bus).2 = h.auxTrace := by
  refine ⟨provideFold_responseRows _ _, ?_, rfl⟩
  intro k hk
  exact provideFold_hints h.lookups bus hnodup hfresh k hk

/-- Witness for C7 (amended): after one `permute` on the empty hasher, filling
into the empty bus appends exactly the two lookups as response rows. -/
theorem fill_trace_provides_at_row_witness :
    (c7hasher.fillTrace ({} : ChipletsBus F5)).1.responseRows
      = ({} : ChipletsBus F5).responseRows ++ c7hasher.lookups.map ChipletsLookupRow.hasher :=
  (fill_trace_provides_at_row c7hasher {} (by decide) (by decide)).1

-- ================================================================================================
-- REMAINING WITNESSES
-- ================================================================================================

/-- Witness for C2: a two-leg root update over `ZMod 5` at index 1 — the
combined sibling-table updates cancel back to the empty table. -/
theorem update_merkle_root_sibling_balance_witness :
    applySiblingUpdates ([] : List (SiblingTableRow F5))
        (legUpdates .mrUpdateOld 0 1 1 c2path ++ legUpdates .mrUpdateNew 16 1 1 c2path)
      = [] := by
  have hs : (Hasher.updateMerkleRoot (fun s => s) ({} : Hasher F5) [] [] c2path 1).isSome
      = true := by decide
  cases hres : Hasher.updateMerkleRoot (fun s => s) ({} : Hasher F5) [] [] c2path 1 with
  | none => rw [hres] at hs; cases hs
  | some r =>
    exact (update_merkle_root_sibling_balance (fun s => s) ({} : Hasher F5) [] [] c2path 1
      (by decide) (by decide) r hres).2 []

/-- Witness for C4: a one-node path over `ZMod 5` at index 1 — the trace grows
by exactly 8 rows for `build_merkle_root`. -/
theorem trace_len_increments_witness :
    ((({} : Hasher F5).buildMerkleRoot (fun s => s) [0, 0, 0, 0] [[1, 0, 0, 0]] 1).map
        (fun r => r.2.2.2.traceLen))
      = some (({} : Hasher F5).traceLen + 8 * ([[(1 : F5), 0, 0, 0]] : List (Word F5)).length) :=
  (trace_len_increments (fun s => s) ({} : Hasher F5) [] [] [] [0, 0, 0, 0] [] []
    [[1, 0, 0, 0]] 1 (by decide) (by decide)).2.2.1

/-- Witness for C5: starting from the empty hasher, which satisfies the address
discipline, one `permute` preserves it. -/
theorem lookup_address_discipline_witness :
    (({} : Hasher F5).permute (fun s => s) (List.replicate 12 0)).2.2.2.WellAddressed :=
  (lookup_address_discipline (fun s => s) ({} : Hasher F5) (List.replicate 12 0) [] [] [] []
    [] [] 0 [] 0 ⟨rfl, by simp⟩).1

end Miden
